import Mathlib

/-!
Verification development for the AokChain node core.

Shallow embedding of:
  * the governance store (src/governance/governance.cpp),
  * the retarget engine and PoW checker (pow.cpp),
  * the block-template assembler loop (miner.cpp, BlockAssembler::addPackageTxs),
  * the bounded LRU cache (src/tokens/tokentypes.h, CLRUCache).

Machine integers are modelled as Nat / Int with explicit reductions
modulo 2^32 / 2^64 / 2^256 where the C++ uses fixed-width arithmetic.
The LevelDB-backed key/value store is modelled as association lists with
unique keys, one list per leading tag byte (the tag families 'N', 'a',
'c', 'f' never collide, so separate fields are a faithful model).
-/

namespace AokChain

/-! ## Association-list primitives shared by the embeddings

`lookupKey` models `CDBWrapper::Read` on a key family, `writeKey` models
`CDBBatch::Write` (insert-or-overwrite), `eraseKey` models `CDBBatch::Erase`. -/

def lookupKey {α β : Type} [DecidableEq α] : List (α × β) → α → Option β
  | [], _ => none
  | (k', v) :: rest, k => if k' = k then some v else lookupKey rest k

def writeKey {α β : Type} [DecidableEq α] : List (α × β) → α → β → List (α × β)
  | [], k, v => [(k, v)]
  | (k', v') :: rest, k, v =>
      if k' = k then (k, v) :: rest else (k', v') :: writeKey rest k v

def eraseKey {α β : Type} [DecidableEq α] : List (α × β) → α → List (α × β)
  | [], _ => []
  | (k', v') :: rest, k => if k' = k then rest else (k', v') :: eraseKey rest k

/-- Keys of an association list. -/
def keysOf {α β : Type} (m : List (α × β)) : List α := m.map Prod.fst

theorem lookupKey_writeKey_self {α β : Type} [DecidableEq α]
    (m : List (α × β)) (k : α) (v : β) : lookupKey (writeKey m k v) k = some v := by
  induction m with
  | nil => simp [writeKey, lookupKey]
  | cons p rest ih =>
    obtain ⟨k', v'⟩ := p
    by_cases h : k' = k
    · simp [writeKey, h, lookupKey]
    · simp [writeKey, h, lookupKey, ih]

theorem lookupKey_writeKey_other {α β : Type} [DecidableEq α]
    (m : List (α × β)) (k t : α) (v : β) (hne : t ≠ k) :
    lookupKey (writeKey m k v) t = lookupKey m t := by
  have hkt : ¬ k = t := fun h => hne h.symm
  induction m with
  | nil => simp [writeKey, lookupKey, hkt]
  | cons p rest ih =>
    obtain ⟨k', v'⟩ := p
    by_cases h : k' = k
    · subst h
      simp [writeKey, lookupKey, hkt]
    · by_cases h2 : k' = t <;> simp [writeKey, h, lookupKey, h2, ih, hne, hkt]

theorem keysOf_writeKey_of_lookup_some {α β : Type} [DecidableEq α]
    (m : List (α × β)) (k : α) (v b : β) (h : lookupKey m k = some b) :
    keysOf (writeKey m k v) = keysOf m := by
  induction m with
  | nil => simp [lookupKey] at h
  | cons p rest ih =>
    obtain ⟨k', v'⟩ := p
    by_cases hk : k' = k
    · simp [writeKey, hk, keysOf]
    · simp only [lookupKey, hk, if_false] at h
      simp only [writeKey, hk, if_false, keysOf, List.map_cons]
      have := ih h
      simp only [keysOf] at this
      rw [this]

theorem keysOf_writeKey_of_lookup_none {α β : Type} [DecidableEq α]
    (m : List (α × β)) (k : α) (v : β) (h : lookupKey m k = none) :
    keysOf (writeKey m k v) = keysOf m ++ [k] := by
  induction m with
  | nil => simp [writeKey, keysOf]
  | cons p rest ih =>
    obtain ⟨k', v'⟩ := p
    by_cases hk : k' = k
    · simp [lookupKey, hk] at h
    · simp only [lookupKey, hk, if_false] at h
      simp [writeKey, hk, keysOf] at *
      exact ih h

theorem lookupKey_eq_none_of_not_mem {α β : Type} [DecidableEq α]
    (m : List (α × β)) (k : α) (h : k ∉ keysOf m) : lookupKey m k = none := by
  induction m with
  | nil => rfl
  | cons p rest ih =>
    obtain ⟨k', v'⟩ := p
    simp only [keysOf, List.map_cons, List.mem_cons] at h
    push_neg at h
    have h1 : ¬ k' = k := fun hh => h.1 hh.symm
    simp [lookupKey, h1]
    exact ih h.2

theorem mem_keysOf_of_lookup_some {α β : Type} [DecidableEq α]
    (m : List (α × β)) (k : α) (b : β) (h : lookupKey m k = some b) : k ∈ keysOf m := by
  induction m with
  | nil => simp [lookupKey] at h
  | cons p rest ih =>
    obtain ⟨k', v'⟩ := p
    by_cases hk : k' = k
    · simp [keysOf, hk]
    · simp only [lookupKey, hk, if_false] at h
      simp only [keysOf, List.map_cons, List.mem_cons]
      exact Or.inr (ih h)

end AokChain

namespace Governance

open AokChain

/-- Scripts are raw byte sequences (CScript). -/
abbrev Script := List Nat

/-- `DUMMY_SCRIPT = CScript() << ParseHex("6885777789")`: a pushdata of the five
bytes 68 85 77 77 89, serialized as the opcode 0x05 followed by the data. -/
def DUMMY_SCRIPT : Script := [5, 104, 133, 119, 119, 137]

/-- `DUMMY_TYPE = 0`, the cost type of the dummy cost entry. -/
def DUMMY_TYPE : Int := 0

def GOVERNANCE_COST_ROOT : Int := 1
def GOVERNANCE_COST_REISSUE : Int := 2
def GOVERNANCE_COST_UNIQUE : Int := 3
def GOVERNANCE_COST_SUB : Int := 4
def GOVERNANCE_COST_USERNAME : Int := 5

/-- Modulus of the C++ `unsigned int` frozen-scripts counter. -/
def U32 : Nat := 4294967296

/-- The persistent governance database, split by key family:
`freeze` is the DB_ADDRESS ('a') family mapping a script to
`FreezeDetails.frozen`, `number` is the DB_NUMBER_FROZEN ('N') counter,
`costs` is the DB_COST ('c') family keyed by `(type, height)`,
`fees` is the DB_FEE_ADDRESS ('f') family keyed by height. -/
structure GovState where
  freeze : List (Script × Bool)
  number : Nat
  costs : List ((Int × Int) × Int)
  fees : List (Int × Script)
deriving Repr, DecidableEq

/-- The chain parameters consumed by `CGovernance::Init`. -/
structure ChainParams where
  rootFeeAmount : Int
  subFeeAmount : Int
  uniqueFeeAmount : Int
  reissueFeeAmount : Int
  usernameFeeAmount : Int
  tokenFeeScript : Script

/-- One coin in base units. -/
def COIN : Int := 100000000

/-- The mainnet fee amounts from `CMainParams` in chainparams.cpp. -/
def mainParams : ChainParams :=
  { rootFeeAmount := 10000 * COIN
    subFeeAmount := 100 * COIN
    uniqueFeeAmount := 100 * COIN
    reissueFeeAmount := 10000 * COIN
    usernameFeeAmount := 1 * COIN
    tokenFeeScript := [118, 169] }

/-- `CGovernance::Init` on a fresh (wiped or uninitialised) database.
The batch writes, in source order: the zero counter, the dummy freeze
entry (`FreezeDetails()` has `frozen = true`), the dummy cost entry, the
five height-0 cost entries (note the source pairs REISSUE with
`SubFeeAmount()` and SUB with `ReissueFeeAmount()`), and the height-0 fee
script. -/
def Init (cp : ChainParams) : GovState :=
  { freeze := writeKey [] DUMMY_SCRIPT true
    number := 0
    costs :=
      writeKey (writeKey (writeKey (writeKey (writeKey (writeKey []
        (DUMMY_TYPE, 0) 0)
        (GOVERNANCE_COST_ROOT, 0) cp.rootFeeAmount)
        (GOVERNANCE_COST_REISSUE, 0) cp.subFeeAmount)
        (GOVERNANCE_COST_UNIQUE, 0) cp.uniqueFeeAmount)
        (GOVERNANCE_COST_SUB, 0) cp.reissueFeeAmount)
        (GOVERNANCE_COST_USERNAME, 0) cp.usernameFeeAmount
    fees := writeKey [] 0 cp.tokenFeeScript }

/-- `CGovernance::GetNumberOfFrozenScripts`. -/
def GetNumberOfFrozenScripts (g : GovState) : Nat := g.number

/-- `CGovernance::FreezeScript`. The counter is a C++ `unsigned int`, so the
increment is taken modulo 2^32. -/
def FreezeScript (g : GovState) (s : Script) : GovState :=
  match lookupKey g.freeze s with
  | some frozen =>
      if frozen = false then
        { g with freeze := writeKey g.freeze s true, number := (g.number + 1) % U32 }
      else
        { g with freeze := writeKey g.freeze s true }
  | none =>
      { g with freeze := writeKey g.freeze s true, number := (g.number + 1) % U32 }

/-- `CGovernance::UnfreezeScript`. `number - 1` on an `unsigned int` is
`(number + 2^32 - 1) % 2^32`. -/
def UnfreezeScript (g : GovState) (s : Script) : GovState :=
  match lookupKey g.freeze s with
  | some frozen =>
      if frozen = true then
        { g with freeze := writeKey g.freeze s false
                 number := (g.number + (U32 - 1)) % U32 }
      else
        { g with freeze := writeKey g.freeze s false }
  | none =>
      { g with freeze := writeKey g.freeze s false }

/-- `CGovernance::RevertFreezeScript`: `none` models `return false` before any
batch write (the store is unchanged). -/
def RevertFreezeScript (g : GovState) (s : Script) : Option GovState :=
  match lookupKey g.freeze s with
  | some frozen =>
      if frozen = true then
        some { g with freeze := writeKey g.freeze s false
                      number := (g.number + (U32 - 1)) % U32 }
      else none
  | none => none

/-- `CGovernance::RevertUnfreezeScript`. -/
def RevertUnfreezeScript (g : GovState) (s : Script) : Option GovState :=
  match lookupKey g.freeze s with
  | some frozen =>
      if frozen = false then
        some { g with freeze := writeKey g.freeze s true
                      number := (g.number + 1) % U32 }
      else none
  | none => none

/-- `CGovernance::CanSend`: true iff the script is absent or stored unfrozen. -/
def CanSend (g : GovState) (s : Script) : Bool :=
  match lookupKey g.freeze s with
  | none => true
  | some frozen => !frozen

/-- The scripts whose stored freeze entry is `frozen = true`; under unique keys
these are exactly the scripts `S` with `CanSend S = false`. -/
def frozenKeys (g : GovState) : List Script :=
  (g.freeze.filter fun p => p.2).map Prod.fst

/-- The calls the freeze registry accepts. -/
inductive GovOp where
  | freeze (s : Script)
  | unfreeze (s : Script)
  | revertFreeze (s : Script)
  | revertUnfreeze (s : Script)

/-- Applying one call; a failed revert performs no write. -/
def applyOp (g : GovState) : GovOp → GovState
  | .freeze s => FreezeScript g s
  | .unfreeze s => UnfreezeScript g s
  | .revertFreeze s => (RevertFreezeScript g s).getD g
  | .revertUnfreeze s => (RevertUnfreezeScript g s).getD g

def runOps (g : GovState) : List GovOp → GovState
  | [] => g
  | op :: rest => runOps (applyOp g op) rest

/-- The iterator loop body of `CGovernance::GetCost`: keep the value of the
matching-type entry with the greatest height seen so far (`height` starts at
-1, `details.cost` starts at 0). -/
def getCostLoop : List ((Int × Int) × Int) → Int → Int → Int → Int
  | [], _, _, cost => cost
  | ((t, h), c) :: rest, ty, height, cost =>
      if t = ty ∧ h > height then getCostLoop rest ty h c
      else getCostLoop rest ty height cost

/-- `CGovernance::GetCost`. -/
def GetCost (g : GovState) (ty : Int) : Int := getCostLoop g.costs ty (-1) 0

/-- `CGovernance::UpdateCost`: unknown types return false without writing;
for a known type the entry is written only when absent, and the batch commit
returns true either way. -/
def UpdateCost (g : GovState) (cost : Int) (ty height : Int) : Bool × GovState :=
  if ty = GOVERNANCE_COST_ROOT ∨ ty = GOVERNANCE_COST_REISSUE ∨
     ty = GOVERNANCE_COST_UNIQUE ∨ ty = GOVERNANCE_COST_SUB ∨
     ty = GOVERNANCE_COST_USERNAME then
    match lookupKey g.costs (ty, height) with
    | some _ => (true, g)
    | none => (true, { g with costs := writeKey g.costs (ty, height) cost })
  else (false, g)

/-- The iterator loop of `CGovernance::GetFeeScript`. -/
def getFeeLoop : List (Int × Script) → Int → Script → Script
  | [], _, s => s
  | (h, sc) :: rest, height, s =>
      if h > height then getFeeLoop rest h sc
      else getFeeLoop rest height s

/-- `CGovernance::GetFeeScript` (`FeeDetails()` holds `DUMMY_SCRIPT`). -/
def GetFeeScript (g : GovState) : Script := getFeeLoop g.fees (-1) DUMMY_SCRIPT

/-- `CGovernance::UpdateFeeScript`: writes only when the height entry is
absent, returns true either way. -/
def UpdateFeeScript (g : GovState) (script : Script) (height : Int) : Bool × GovState :=
  match lookupKey g.fees height with
  | some _ => (true, g)
  | none => (true, { g with fees := writeKey g.fees height script })

/-! ### Counting frozen entries -/

/-- Number of stored freeze entries whose value is `frozen = true`. -/
def countFrozen (m : List (Script × Bool)) : Nat :=
  (m.filter fun p => p.2).length

theorem frozenKeys_length (g : GovState) :
    (frozenKeys g).length = countFrozen g.freeze := by
  simp [frozenKeys, countFrozen]

theorem countFrozen_writeKey_of_lookup_none (m : List (Script × Bool))
    (s : Script) (b : Bool) (h : lookupKey m s = none) :
    countFrozen (writeKey m s b) = countFrozen m + (if b then 1 else 0) := by
  induction m with
  | nil => cases b <;> simp [writeKey, countFrozen]
  | cons p rest ih =>
    obtain ⟨k, v⟩ := p
    by_cases hk : k = s
    · simp [lookupKey, hk] at h
    · simp only [lookupKey, hk, if_false] at h
      have hih := ih h
      simp only [writeKey, hk, if_false, countFrozen, List.filter_cons] at hih ⊢
      cases v <;> cases b <;> simp at hih ⊢
      all_goals omega

theorem countFrozen_writeKey_of_lookup_some (m : List (Script × Bool))
    (s : Script) (b b0 : Bool) (h : lookupKey m s = some b0) :
    countFrozen (writeKey m s b) + (if b0 then 1 else 0)
      = countFrozen m + (if b then 1 else 0) := by
  induction m with
  | nil => simp [lookupKey] at h
  | cons p rest ih =>
    obtain ⟨k, v⟩ := p
    by_cases hk : k = s
    · simp only [lookupKey, hk, if_true] at h
      have hv : v = b0 := by injection h
      subst hv
      subst hk
      simp only [writeKey, if_pos rfl, countFrozen, List.filter_cons]
      cases v <;> cases b <;> simp
    · simp only [lookupKey, hk, if_false] at h
      have hih := ih h
      simp only [writeKey, hk, if_false, countFrozen, List.filter_cons] at hih ⊢
      cases v <;> cases b0 <;> cases b <;> simp at hih ⊢
      all_goals omega

theorem lookup_isSome_of_mem_keysOf {α β : Type} [DecidableEq α]
    (m : List (α × β)) (k : α) (h : k ∈ AokChain.keysOf m) :
    (lookupKey m k).isSome := by
  induction m with
  | nil => simp [AokChain.keysOf] at h
  | cons p rest ih =>
    obtain ⟨k', v'⟩ := p
    by_cases hk : k' = k
    · simp [lookupKey, hk]
    · simp only [AokChain.keysOf, List.map_cons, List.mem_cons] at h
      rcases h with h | h
      · exact absurd h.symm hk
      · simpa [lookupKey, hk] using ih h

theorem not_mem_keysOf_of_lookup_none {α β : Type} [DecidableEq α]
    (m : List (α × β)) (k : α) (h : lookupKey m k = none) :
    k ∉ AokChain.keysOf m := by
  intro hmem
  have := lookup_isSome_of_mem_keysOf m k hmem
  rw [h] at this
  simp at this

theorem mem_frozenList_iff (m : List (Script × Bool)) (s : Script) :
    (keysOf m).Nodup →
    (s ∈ (m.filter fun p => p.2).map Prod.fst ↔ lookupKey m s = some true) := by
  induction m with
  | nil => intro _; simp [lookupKey]
  | cons p rest ih =>
    intro hnd
    obtain ⟨k, v⟩ := p
    simp only [keysOf, List.map_cons, List.nodup_cons] at hnd
    by_cases hk : k = s
    · subst hk
      have hnone : lookupKey rest k = none :=
        lookupKey_eq_none_of_not_mem rest k hnd.1
      have hnot : k ∉ (rest.filter fun p => p.2).map Prod.fst := by
        intro hmem
        rw [ih hnd.2] at hmem
        rw [hnone] at hmem
        exact Option.noConfusion hmem
      cases v <;> simp [lookupKey, hnot]
    · have := ih hnd.2
      cases v <;> simp [lookupKey, hk, this, Ne.symm hk]

/-- Under unique keys, the scripts listed by `frozenKeys` are exactly those
whose stored entry is `frozen = true`. -/
theorem mem_frozenKeys_iff (g : GovState) (hnd : (keysOf g.freeze).Nodup)
    (s : Script) : s ∈ frozenKeys g ↔ lookupKey g.freeze s = some true :=
  mem_frozenList_iff g.freeze s hnd

/-- `CanSend` is false exactly on scripts stored as frozen. -/
theorem canSend_eq_false_iff (g : GovState) (s : Script) :
    CanSend g s = false ↔ lookupKey g.freeze s = some true := by
  unfold CanSend
  cases h : lookupKey g.freeze s with
  | none => simp
  | some b => cases b <;> simp

/-! ### The reachable-state invariant for the frozen counter -/

/-- The stored counter is one less (mod 2^32) than the number of frozen
entries: the dummy entry written by `Init` is frozen but never counted. -/
def GovInv (g : GovState) : Prop :=
  (keysOf g.freeze).Nodup ∧ g.number < U32 ∧
  (g.number + 1) % U32 = countFrozen g.freeze % U32

theorem govInv_init (cp : ChainParams) : GovInv (Init cp) := by
  refine ⟨?_, ?_, ?_⟩
  · show (keysOf (writeKey ([] : List (Script × Bool)) DUMMY_SCRIPT true)).Nodup
    decide
  · show (0 : Nat) < U32
    decide
  · show ((0 : Nat) + 1) % U32
      = countFrozen (writeKey ([] : List (Script × Bool)) DUMMY_SCRIPT true) % U32
    decide

/-! Equation lemmas describing each call's result state, one per branch of the
source. -/

theorem freezeScript_none (g : GovState) (s : Script)
    (h : lookupKey g.freeze s = none) :
    FreezeScript g s =
      { g with freeze := writeKey g.freeze s true, number := (g.number + 1) % U32 } := by
  unfold FreezeScript
  rw [h]

theorem freezeScript_some_false (g : GovState) (s : Script)
    (h : lookupKey g.freeze s = some false) :
    FreezeScript g s =
      { g with freeze := writeKey g.freeze s true, number := (g.number + 1) % U32 } := by
  unfold FreezeScript
  rw [h]
  rfl

theorem freezeScript_some_true (g : GovState) (s : Script)
    (h : lookupKey g.freeze s = some true) :
    FreezeScript g s = { g with freeze := writeKey g.freeze s true } := by
  unfold FreezeScript
  rw [h]
  rfl

theorem unfreezeScript_none (g : GovState) (s : Script)
    (h : lookupKey g.freeze s = none) :
    UnfreezeScript g s = { g with freeze := writeKey g.freeze s false } := by
  unfold UnfreezeScript
  rw [h]

theorem unfreezeScript_some_true (g : GovState) (s : Script)
    (h : lookupKey g.freeze s = some true) :
    UnfreezeScript g s =
      { g with freeze := writeKey g.freeze s false
               number := (g.number + (U32 - 1)) % U32 } := by
  unfold UnfreezeScript
  rw [h]
  rfl

theorem unfreezeScript_some_false (g : GovState) (s : Script)
    (h : lookupKey g.freeze s = some false) :
    UnfreezeScript g s = { g with freeze := writeKey g.freeze s false } := by
  unfold UnfreezeScript
  rw [h]
  rfl

theorem revertFreezeScript_some_true (g : GovState) (s : Script)
    (h : lookupKey g.freeze s = some true) :
    RevertFreezeScript g s =
      some { g with freeze := writeKey g.freeze s false
                    number := (g.number + (U32 - 1)) % U32 } := by
  unfold RevertFreezeScript
  rw [h]
  rfl

theorem revertFreezeScript_fails (g : GovState) (s : Script)
    (h : lookupKey g.freeze s ≠ some true) :
    RevertFreezeScript g s = none := by
  unfold RevertFreezeScript
  cases hl : lookupKey g.freeze s with
  | none => rfl
  | some b =>
    cases b with
    | false => rfl
    | true => exact absurd hl h

theorem revertUnfreezeScript_some_false (g : GovState) (s : Script)
    (h : lookupKey g.freeze s = some false) :
    RevertUnfreezeScript g s =
      some { g with freeze := writeKey g.freeze s true
                    number := (g.number + 1) % U32 } := by
  unfold RevertUnfreezeScript
  rw [h]
  rfl

theorem revertUnfreezeScript_fails (g : GovState) (s : Script)
    (h : lookupKey g.freeze s ≠ some false) :
    RevertUnfreezeScript g s = none := by
  unfold RevertUnfreezeScript
  cases hl : lookupKey g.freeze s with
  | none => rfl
  | some b =>
    cases b with
    | true => rfl
    | false => exact absurd hl h

theorem nodup_keys_writeKey_none (m : List (Script × Bool)) (s : Script)
    (b : Bool) (hnd : (keysOf m).Nodup) (h : lookupKey m s = none) :
    (keysOf (writeKey m s b)).Nodup := by
  rw [keysOf_writeKey_of_lookup_none m s b h]
  have hmem := not_mem_keysOf_of_lookup_none m s h
  simp [List.nodup_append, hnd, hmem]

theorem nodup_keys_writeKey_some (m : List (Script × Bool)) (s : Script)
    (b b0 : Bool) (hnd : (keysOf m).Nodup) (h : lookupKey m s = some b0) :
    (keysOf (writeKey m s b)).Nodup := by
  rw [keysOf_writeKey_of_lookup_some m s b b0 h]
  exact hnd

theorem govInv_applyOp (g : GovState) (op : GovOp) (h : GovInv g) :
    GovInv (applyOp g op) := by
  obtain ⟨hnd, hlt, hcnt⟩ := h
  have hU : U32 = 4294967296 := rfl
  rw [hU] at hlt hcnt
  cases op with
  | freeze s =>
    show GovInv (FreezeScript g s)
    cases hl : lookupKey g.freeze s with
    | none =>
      rw [freezeScript_none g s hl]
      have hc : countFrozen (writeKey g.freeze s true) = countFrozen g.freeze + 1 := by
        simpa using countFrozen_writeKey_of_lookup_none g.freeze s true hl
      refine ⟨nodup_keys_writeKey_none g.freeze s true hnd hl, ?_, ?_⟩
      · show (g.number + 1) % U32 < U32
        rw [hU]; omega
      · show ((g.number + 1) % U32 + 1) % U32 = countFrozen (writeKey g.freeze s true) % U32
        rw [hc, hU]; omega
    | some b =>
      cases b with
      | false =>
        rw [freezeScript_some_false g s hl]
        have hc : countFrozen (writeKey g.freeze s true) = countFrozen g.freeze + 1 := by
          simpa using countFrozen_writeKey_of_lookup_some g.freeze s true false hl
        refine ⟨nodup_keys_writeKey_some g.freeze s true false hnd hl, ?_, ?_⟩
        · show (g.number + 1) % U32 < U32
          rw [hU]; omega
        · show ((g.number + 1) % U32 + 1) % U32 = countFrozen (writeKey g.freeze s true) % U32
          rw [hc, hU]; omega
      | true =>
        rw [freezeScript_some_true g s hl]
        have hc : countFrozen (writeKey g.freeze s true) + 1 = countFrozen g.freeze + 1 := by
          simpa using countFrozen_writeKey_of_lookup_some g.freeze s true true hl
        refine ⟨nodup_keys_writeKey_some g.freeze s true true hnd hl, ?_, ?_⟩
        · show g.number < U32
          rw [hU]; omega
        · show (g.number + 1) % U32 = countFrozen (writeKey g.freeze s true) % U32
          rw [hU]; omega
  | unfreeze s =>
    show GovInv (UnfreezeScript g s)
    cases hl : lookupKey g.freeze s with
    | none =>
      rw [unfreezeScript_none g s hl]
      have hc : countFrozen (writeKey g.freeze s false) = countFrozen g.freeze := by
        simpa using countFrozen_writeKey_of_lookup_none g.freeze s false hl
      refine ⟨nodup_keys_writeKey_none g.freeze s false hnd hl, ?_, ?_⟩
      · show g.number < U32
        rw [hU]; omega
      · show (g.number + 1) % U32 = countFrozen (writeKey g.freeze s false) % U32
        rw [hc, hU]; omega
    | some b =>
      cases b with
      | true =>
        rw [unfreezeScript_some_true g s hl]
        have hc : countFrozen (writeKey g.freeze s false) + 1 = countFrozen g.freeze := by
          simpa using countFrozen_writeKey_of_lookup_some g.freeze s false true hl
        refine ⟨nodup_keys_writeKey_some g.freeze s false true hnd hl, ?_, ?_⟩
        · show (g.number + (U32 - 1)) % U32 < U32
          rw [hU]; omega
        · show ((g.number + (U32 - 1)) % U32 + 1) % U32
            = countFrozen (writeKey g.freeze s false) % U32
          rw [hU]; omega
      | false =>
        rw [unfreezeScript_some_false g s hl]
        have hc : countFrozen (writeKey g.freeze s false) = countFrozen g.freeze := by
          simpa using countFrozen_writeKey_of_lookup_some g.freeze s false false hl
        refine ⟨nodup_keys_writeKey_some g.freeze s false false hnd hl, ?_, ?_⟩
        · show g.number < U32
          rw [hU]; omega
        · show (g.number + 1) % U32 = countFrozen (writeKey g.freeze s false) % U32
          rw [hc, hU]; omega
  | revertFreeze s =>
    show GovInv ((RevertFreezeScript g s).getD g)
    cases hl : lookupKey g.freeze s with
    | none =>
      rw [revertFreezeScript_fails g s (by rw [hl]; intro hh; exact Option.noConfusion hh)]
      simp only [Option.getD_none]
      exact ⟨hnd, by rw [hU]; omega, by rw [hU]; omega⟩
    | some b =>
      cases b with
      | false =>
        rw [revertFreezeScript_fails g s (by rw [hl]; intro hh; simp at hh)]
        simp only [Option.getD_none]
        exact ⟨hnd, by rw [hU]; omega, by rw [hU]; omega⟩
      | true =>
        rw [revertFreezeScript_some_true g s hl]
        have hc : countFrozen (writeKey g.freeze s false) + 1 = countFrozen g.freeze := by
          simpa using countFrozen_writeKey_of_lookup_some g.freeze s false true hl
        refine ⟨nodup_keys_writeKey_some g.freeze s false true hnd hl, ?_, ?_⟩
        · show (g.number + (U32 - 1)) % U32 < U32
          rw [hU]; omega
        · show ((g.number + (U32 - 1)) % U32 + 1) % U32
            = countFrozen (writeKey g.freeze s false) % U32
          rw [hU]; omega
  | revertUnfreeze s =>
    show GovInv ((RevertUnfreezeScript g s).getD g)
    cases hl : lookupKey g.freeze s with
    | none =>
      rw [revertUnfreezeScript_fails g s (by rw [hl]; intro hh; exact Option.noConfusion hh)]
      simp only [Option.getD_none]
      exact ⟨hnd, by rw [hU]; omega, by rw [hU]; omega⟩
    | some b =>
      cases b with
      | true =>
        rw [revertUnfreezeScript_fails g s (by rw [hl]; intro hh; simp at hh)]
        simp only [Option.getD_none]
        exact ⟨hnd, by rw [hU]; omega, by rw [hU]; omega⟩
      | false =>
        rw [revertUnfreezeScript_some_false g s hl]
        have hc : countFrozen (writeKey g.freeze s true) = countFrozen g.freeze + 1 := by
          simpa using countFrozen_writeKey_of_lookup_some g.freeze s true false hl
        refine ⟨nodup_keys_writeKey_some g.freeze s true false hnd hl, ?_, ?_⟩
        · show (g.number + 1) % U32 < U32
          rw [hU]; omega
        · show ((g.number + 1) % U32 + 1) % U32
            = countFrozen (writeKey g.freeze s true) % U32
          rw [hc, hU]; omega

theorem govInv_runOps (g : GovState) (ops : List GovOp) (h : GovInv g) :
    GovInv (runOps g ops) := by
  induction ops generalizing g with
  | nil => exact h
  | cons op rest ih => exact ih (applyOp g op) (govInv_applyOp g op h)

/-! ### Claim theorems for the governance store -/

/-- C1 (amended): for every state reachable from Init by FreezeScript,
UnfreezeScript, RevertFreezeScript and RevertUnfreezeScript calls, the
frozen counter is congruent modulo 2^32 to the number of scripts S with
`CanSend(S) = false` minus one (equivalently, counter + 1 is congruent to
that cardinality): the dummy entry written by Init is stored frozen but is
never counted. The scripts with `CanSend(S) = false` are exactly the
members of `frozenKeys`. -/
theorem governance_frozen_counter_invariant (cp : ChainParams) (ops : List GovOp) :
    (GetNumberOfFrozenScripts (runOps (Init cp) ops) + 1) % U32
      = (frozenKeys (runOps (Init cp) ops)).length % U32
    ∧ ∀ s : Script,
        CanSend (runOps (Init cp) ops) s = false
          ↔ s ∈ frozenKeys (runOps (Init cp) ops) := by
  have hinv := govInv_runOps (Init cp) ops (govInv_init cp)
  obtain ⟨hnd, hlt, hcnt⟩ := hinv
  constructor
  · rw [frozenKeys_length]
    exact hcnt
  · intro s
    rw [canSend_eq_false_iff, mem_frozenKeys_iff _ hnd]

/-- C1 counterexample: in the state immediately after Init (reachable via
the empty call sequence), the counter is 0 while exactly one script — the
dummy script — has `CanSend = false`, so the claimed equality fails. -/
theorem governance_frozen_counter_counterexample :
    runOps (Init mainParams) [] = Init mainParams ∧
    CanSend (Init mainParams) DUMMY_SCRIPT = false ∧
    GetNumberOfFrozenScripts (Init mainParams) ≠ (frozenKeys (Init mainParams)).length := by
  refine ⟨rfl, by decide, by decide⟩

/-- C2 (amended): after Init on a fresh database, the ROOT, UNIQUE and
USERNAME cost entries hold the same-name chain-parameter fees, but the
REISSUE entry holds `SubFeeAmount()` and the SUB entry holds
`ReissueFeeAmount()` — the two are wired crosswise in `CGovernance::Init`. -/
theorem governance_init_costs (cp : ChainParams) :
    GetCost (Init cp) GOVERNANCE_COST_ROOT = cp.rootFeeAmount ∧
    GetCost (Init cp) GOVERNANCE_COST_REISSUE = cp.subFeeAmount ∧
    GetCost (Init cp) GOVERNANCE_COST_UNIQUE = cp.uniqueFeeAmount ∧
    GetCost (Init cp) GOVERNANCE_COST_SUB = cp.reissueFeeAmount ∧
    GetCost (Init cp) GOVERNANCE_COST_USERNAME = cp.usernameFeeAmount :=
  ⟨rfl, rfl, rfl, rfl, rfl⟩

/-- C2 counterexample: with the mainnet chain parameters (SubFeeAmount =
100 COIN, ReissueFeeAmount = 10000 COIN) the SUB and REISSUE cost entries
do not hold the fee amounts of the same name. -/
theorem governance_init_costs_counterexample :
    GetCost (Init mainParams) GOVERNANCE_COST_SUB ≠ mainParams.subFeeAmount ∧
    GetCost (Init mainParams) GOVERNANCE_COST_REISSUE ≠ mainParams.reissueFeeAmount := by
  refine ⟨by decide, by decide⟩

/-- C3: RevertFreezeScript on an entry stored frozen sets it unfrozen and
decrements the counter by one, touching nothing else; on an absent or
unfrozen entry it fails (returns the corrupt-state error) with the store
unchanged. RevertUnfreezeScript is the dual. -/
theorem governance_revert_spec (g : GovState) (s : Script) :
    (lookupKey g.freeze s = some true → 1 ≤ g.number → g.number < U32 →
       RevertFreezeScript g s =
         some { g with freeze := writeKey g.freeze s false, number := g.number - 1 } ∧
       CanSend { g with freeze := writeKey g.freeze s false, number := g.number - 1 } s
         = true) ∧
    (lookupKey g.freeze s ≠ some true → RevertFreezeScript g s = none) ∧
    (lookupKey g.freeze s = some false → g.number + 1 < U32 →
       RevertUnfreezeScript g s =
         some { g with freeze := writeKey g.freeze s true, number := g.number + 1 } ∧
       CanSend { g with freeze := writeKey g.freeze s true, number := g.number + 1 } s
         = false) ∧
    (lookupKey g.freeze s ≠ some false → RevertUnfreezeScript g s = none) ∧
    (∀ t : Script, t ≠ s →
       lookupKey (writeKey g.freeze s false) t = lookupKey g.freeze t ∧
       lookupKey (writeKey g.freeze s true) t = lookupKey g.freeze t) := by
  have hU : U32 = 4294967296 := rfl
  refine ⟨?_, revertFreezeScript_fails g s, ?_, revertUnfreezeScript_fails g s, ?_⟩
  · intro hl h1 h2
    have heq : (g.number + (U32 - 1)) % U32 = g.number - 1 := by
      rw [hU] at *; omega
    constructor
    · rw [revertFreezeScript_some_true g s hl, heq]
    · show CanSend _ _ = true
      unfold CanSend
      rw [lookupKey_writeKey_self]
      rfl
  · intro hl h2
    have heq : (g.number + 1) % U32 = g.number + 1 := by
      rw [hU] at *; omega
    constructor
    · rw [revertUnfreezeScript_some_false g s hl, heq]
    · show CanSend _ _ = false
      unfold CanSend
      rw [lookupKey_writeKey_self]
      rfl
  · intro t ht
    exact ⟨lookupKey_writeKey_other _ _ _ _ ht, lookupKey_writeKey_other _ _ _ _ ht⟩

/-- C3 witness (the S5 scenario): freeze a fresh script on the freshly
initialised store, revert the freeze — the counter drops to 0 and the
script can send again — and a second revert fails with the corrupt-state
error. -/
theorem governance_revert_spec_witness :
    GetNumberOfFrozenScripts
      ((RevertFreezeScript (FreezeScript (Init mainParams) [1]) [1]).getD
        (Init mainParams)) = 0 ∧
    CanSend
      ((RevertFreezeScript (FreezeScript (Init mainParams) [1]) [1]).getD
        (Init mainParams)) [1] = true ∧
    RevertFreezeScript
      ((RevertFreezeScript (FreezeScript (Init mainParams) [1]) [1]).getD
        (Init mainParams)) [1] = none := by
  have h := (governance_revert_spec (FreezeScript (Init mainParams) [1]) [1]).1
    (by decide) (by decide) (by decide)
  rw [h.1]
  refine ⟨by decide, by decide, ?_⟩
  exact (governance_revert_spec _ [1]).2.1 (by decide)

/-- C10 (amended): when a cost entry for (type, height) already exists,
UpdateCost writes nothing and returns true for the five known cost types,
but returns false (still writing nothing) for any other type — including
the dummy type 0 whose entry Init creates. UpdateFeeScript with an existing
height entry writes nothing and returns true unconditionally. -/
theorem governance_update_frame (g : GovState) (a ty height : Int) :
    ((ty = GOVERNANCE_COST_ROOT ∨ ty = GOVERNANCE_COST_REISSUE ∨
      ty = GOVERNANCE_COST_UNIQUE ∨ ty = GOVERNANCE_COST_SUB ∨
      ty = GOVERNANCE_COST_USERNAME) →
      ∀ c, lookupKey g.costs (ty, height) = some c →
        UpdateCost g a ty height = (true, g)) ∧
    (¬(ty = GOVERNANCE_COST_ROOT ∨ ty = GOVERNANCE_COST_REISSUE ∨
       ty = GOVERNANCE_COST_UNIQUE ∨ ty = GOVERNANCE_COST_SUB ∨
       ty = GOVERNANCE_COST_USERNAME) →
      UpdateCost g a ty height = (false, g)) ∧
    (∀ (sc : Script) (h2 : Int) (d : Script), lookupKey g.fees h2 = some d →
      UpdateFeeScript g sc h2 = (true, g)) := by
  refine ⟨?_, ?_, ?_⟩
  · intro hty c hc
    unfold UpdateCost
    rw [if_pos hty, hc]
  · intro hty
    unfold UpdateCost
    rw [if_neg hty]
  · intro sc h2 d hd
    unfold UpdateFeeScript
    rw [hd]

/-- C10 counterexample: the dummy cost entry (type 0, height 0) written by
Init exists, yet UpdateCost on it returns false, not true. -/
theorem governance_update_frame_counterexample :
    lookupKey (Init mainParams).costs (DUMMY_TYPE, 0) = some 0 ∧
    (UpdateCost (Init mainParams) 7 DUMMY_TYPE 0).1 = false ∧
    (UpdateCost (Init mainParams) 7 DUMMY_TYPE 0).2 = Init mainParams := by
  refine ⟨by decide, by decide, by decide⟩

/-- C10 witness: on the freshly initialised store, updating the existing
ROOT cost entry at height 0 returns true and leaves the store untouched;
the unknown type 0 returns false; updating the existing height-0 fee
script returns true and leaves the store untouched. -/
theorem governance_update_frame_witness :
    UpdateCost (Init mainParams) 7 GOVERNANCE_COST_ROOT 0 = (true, Init mainParams) ∧
    UpdateFeeScript (Init mainParams) [9] 0 = (true, Init mainParams) := by
  constructor
  · exact (governance_update_frame (Init mainParams) 7 GOVERNANCE_COST_ROOT 0).1
      (Or.inl rfl) (10000 * COIN) (by decide)
  · exact (governance_update_frame (Init mainParams) 7 GOVERNANCE_COST_ROOT 0).2.2
      [9] 0 mainParams.tokenFeeScript (by decide)

end Governance

namespace Pow

open AokChain

/-- 2^64, the modulus of uint64 values. -/
def U64M : Nat := 18446744073709551616

/-- 2^256, the modulus of arith_uint256 values. -/
def U256M : Nat := U64M ^ 4

/-- `arith_uint256::SetCompact`: decode a compact-encoded target, returning
(value, fNegative, fOverflow). `nCompact` is a uint32. -/
def setCompact (nCompact : Nat) : Nat × Bool × Bool :=
  let nSize := nCompact / 2 ^ 24
  let nWord := nCompact % 2 ^ 23
  let val :=
    if nSize ≤ 3 then nWord >>> (8 * (3 - nSize))
    else (nWord <<< (8 * (nSize - 3))) % U256M
  let fNegative := nWord != 0 && (nCompact >>> 23) % 2 == 1
  let fOverflow := nWord != 0 &&
    (decide (nSize > 34) ||
     (decide (nWord > 0xff) && decide (nSize > 33)) ||
     (decide (nWord > 0xffff) && decide (nSize > 32)))
  (val, fNegative, fOverflow)

def bitsLenAux : Nat → Nat → Nat
  | 0, _ => 0
  | fuel + 1, n => if n = 0 then 0 else bitsLenAux fuel (n / 2) + 1

/-- `base_uint::bits`: index of the highest set bit plus one, 0 for zero.
Computed by 256 halvings, which is exact for every value an arith_uint256
can hold (all inputs here are below 2^256). -/
def bitsLen (n : Nat) : Nat := bitsLenAux 256 n

/-- `arith_uint256::GetCompact` with fNegative = false. -/
def getCompact (n : Nat) : Nat :=
  let nSize := (bitsLen n + 7) / 8
  let c0 :=
    if nSize ≤ 3 then (n % U64M) <<< (8 * (3 - nSize))
    else (n >>> (8 * (nSize - 3))) % U64M
  let c1 := if (c0 >>> 23) % 2 = 1 then c0 >>> 8 else c0
  let s1 := if (c0 >>> 23) % 2 = 1 then nSize + 1 else nSize
  c1 ||| (s1 <<< 24)

/-- `CheckProofOfWork(hash, nBits, params)` from pow.cpp. -/
def CheckProofOfWork (hash : Nat) (nBits : Nat) (powLimit : Nat) : Bool :=
  let r := setCompact nBits
  if r.2.1 || r.1 == 0 || r.2.2 || decide (r.1 > powLimit) then false
  else if decide (hash > r.1) then false
  else true

/-- The consensus parameters used by the retarget engine. -/
structure ConsensusParams where
  powLimit : Nat
  posLimit : Nat
  fPowNoRetargeting : Bool
  fPosNoRetargeting : Bool
  nTargetSpacing : Int
  nTargetTimespan : Int
deriving Repr, DecidableEq

/-- The per-block data the retarget engine reads from a CBlockIndex. -/
structure BlockIndexData where
  nBits : Nat
  nTime : Int
  isProofOfStake : Bool
deriving Repr, DecidableEq

/-- int64 → uint64 conversion (two's complement), applied when an int64
operand is passed to an arith_uint256 operation. -/
def toU64 (i : Int) : Nat := (i % (18446744073709551616 : Int)).toNat

/-- `CalculateNextTargetRequired(pindexLast, nFirstBlockTime, params)` from
pow.cpp. The arith_uint256 multiplication wraps modulo 2^256; the
arith_uint256 division by zero throws in the source, while this model
returns 0 (the claims carry positivity hypotheses that exclude that case). -/
def CalculateNextTargetRequired (last : BlockIndexData) (nFirstBlockTime : Int)
    (p : ConsensusParams) : Nat :=
  let fPoS := last.isProofOfStake
  if !fPoS && p.fPowNoRetargeting then last.nBits
  else if fPoS && p.fPosNoRetargeting then last.nBits
  else
    let a0 := last.nTime - nFirstBlockTime
    let a1 := if a0 < 0 then p.nTargetSpacing else a0
    let nActualSpacing :=
      if a1 > p.nTargetSpacing * 10 then p.nTargetSpacing * 10 else a1
    let bnTargetLimit := if fPoS then p.posLimit else p.powLimit
    let bnNew0 := (setCompact last.nBits).1
    let nInterval := Int.tdiv p.nTargetTimespan p.nTargetSpacing
    let bnNew1 :=
      (bnNew0 * toU64 ((nInterval - 1) * p.nTargetSpacing
          + nActualSpacing + nActualSpacing)) % U256M
    let bnNew2 := bnNew1 / toU64 ((nInterval + 1) * p.nTargetSpacing)
    let bnNew3 := if bnNew2 = 0 ∨ bnNew2 > bnTargetLimit then bnTargetLimit else bnNew2
    getCompact bnNew3

/-- Modelled from the spec: `GetLastBlockIndex` (defined in chain.cpp, which
is not part of the corpus; only its callers are) walks back from the given
index to the latest block of the requested kind, stopping at the genesis
block. A chain is the list of block-index records from the tip down to the
genesis block; the function returns the suffix starting at the found block. -/
def GetLastBlockIndex (c : List BlockIndexData) (fPoS : Bool) : List BlockIndexData :=
  match c with
  | [] => []
  | b :: rest =>
      if rest.isEmpty then b :: rest
      else if b.isProofOfStake = fPoS then b :: rest
      else GetLastBlockIndex rest fPoS

/-- `GetNextTargetRequired(pindexLast, pblock, fProofOfStake, params)` from
pow.cpp; the chain list stands for `pindexLast` and its `pprev` links, an
empty list for `pindexLast == NULL`. -/
def GetNextTargetRequired (c : List BlockIndexData) (fPoS : Bool)
    (p : ConsensusParams) : Nat :=
  let nTargetLimit := getCompact (if fPoS then p.posLimit else p.powLimit)
  match c with
  | [] => nTargetLimit
  | _ :: _ =>
    match GetLastBlockIndex c fPoS with
    | [] => nTargetLimit
    | pb :: prest =>
      if prest.isEmpty then nTargetLimit
      else
        match GetLastBlockIndex prest fPoS with
        | [] => nTargetLimit
        | ppb :: pprest =>
          if pprest.isEmpty then nTargetLimit
          else CalculateNextTargetRequired pb ppb.nTime p

/-- The retarget computation as the specification phrases it: clamp the
actual spacing into place, apply
`prevTarget * ((interval - 1) * ts + 2 * actual) / ((interval + 1) * ts)`,
saturate into (0, targetLimit], and return the compact encoding. -/
def specNextTarget (prevTarget : Nat) (prevTime firstTime : Int)
    (targetLimit : Nat) (ts timespan : Int) : Nat :=
  let actual0 := prevTime - firstTime
  let actual :=
    if actual0 < 0 then ts else if actual0 > 10 * ts then 10 * ts else actual0
  let interval := Int.tdiv timespan ts
  let newTarget := prevTarget * ((interval - 1) * ts + 2 * actual).toNat
                     / ((interval + 1) * ts).toNat
  let saturated := if newTarget = 0 ∨ newTarget > targetLimit then targetLimit else newTarget
  getCompact saturated

/-! ### Claim theorems for the PoW checker and retarget engine -/

theorem toU64_eq_toNat (i : Int) (h0 : 0 ≤ i) (h1 : i < 18446744073709551616) :
    toU64 i = i.toNat := by
  unfold toU64
  rw [Int.emod_eq_of_lt h0 h1]

/-- C5: CheckProofOfWork(h, nBits) returns true if and only if decoding
nBits yields a non-negative, non-zero, non-overflowing target that is at
most powLimit, and h is at most the target under 256-bit unsigned
comparison. -/
theorem checkProofOfWork_iff (hash nBits powLimit : Nat) :
    CheckProofOfWork hash nBits powLimit = true ↔
      ((setCompact nBits).2.1 = false ∧ (setCompact nBits).1 ≠ 0 ∧
       (setCompact nBits).2.2 = false ∧ (setCompact nBits).1 ≤ powLimit ∧
       hash ≤ (setCompact nBits).1) := by
  unfold CheckProofOfWork
  rcases hsc : setCompact nBits with ⟨t, neg, over⟩
  cases neg <;> cases over <;> simp
  all_goals omega

/-- C4: with the matching no-retargeting flag off and sane positive
spacing/timespan parameters (small enough that the int64 and 256-bit
intermediates do not wrap), CalculateNextTargetRequired returns exactly
the compact encoding of
prevTarget * ((interval - 1) * ts + 2 * actual) / ((interval + 1) * ts)
with the actual spacing clamped and the result saturated into
(0, targetLimit], as the specification states. -/
theorem calculateNextTarget_spec (last : BlockIndexData) (firstTime : Int)
    (p : ConsensusParams)
    (hflag : (if last.isProofOfStake then p.fPosNoRetargeting
              else p.fPowNoRetargeting) = false)
    (hts : 0 < p.nTargetSpacing)
    (hspan : p.nTargetSpacing ≤ p.nTargetTimespan)
    (hfit : p.nTargetTimespan + 20 * p.nTargetSpacing < 18446744073709551616)
    (hprod : (setCompact last.nBits).1 *
        (p.nTargetTimespan + 20 * p.nTargetSpacing).toNat < U256M) :
    CalculateNextTargetRequired last firstTime p
      = specNextTarget (setCompact last.nBits).1 last.nTime firstTime
          (if last.isProofOfStake then p.posLimit else p.powLimit)
          p.nTargetSpacing p.nTargetTimespan := by
  obtain ⟨n, hn⟩ : ∃ n : Nat, p.nTargetSpacing = (n : Int) :=
    ⟨p.nTargetSpacing.toNat, by omega⟩
  obtain ⟨m, hm⟩ : ∃ m : Nat, p.nTargetTimespan = (m : Int) :=
    ⟨p.nTargetTimespan.toNat, by omega⟩
  have htdiv : Int.tdiv (m : Int) (n : Int) = ((m / n : Nat) : Int) := rfl
  have hn0 : 0 < n := by omega
  have hmn : n ≤ m := by omega
  have hI1 : 1 ≤ Int.tdiv p.nTargetTimespan p.nTargetSpacing := by
    rw [hm, hn, htdiv]
    have := (Nat.one_le_div_iff hn0).mpr hmn
    omega
  have hImul : Int.tdiv p.nTargetTimespan p.nTargetSpacing * p.nTargetSpacing
      ≤ p.nTargetTimespan := by
    rw [hm, hn, htdiv]
    exact_mod_cast Nat.div_mul_le_self m n
  set A := last.nTime - firstTime with hA
  set ts := p.nTargetSpacing with hts2
  set I := Int.tdiv p.nTargetTimespan ts with hI
  have hactual : (if (if A < 0 then ts else A) > ts * 10 then ts * 10
                  else (if A < 0 then ts else A))
      = (if A < 0 then ts else if A > 10 * ts then 10 * ts else A) := by
    split_ifs <;> omega
  set act := (if A < 0 then ts else if A > 10 * ts then 10 * ts else A) with hact
  have hact0 : 0 ≤ act := by rw [hact]; split_ifs <;> omega
  have hact10 : act ≤ 10 * ts := by rw [hact]; split_ifs <;> omega
  have hM0 : 0 ≤ (I - 1) * ts + act + act := by nlinarith
  have hMle : (I - 1) * ts + act + act ≤ p.nTargetTimespan + 20 * ts := by nlinarith
  have hD0 : 0 < (I + 1) * ts := by nlinarith
  have hDle : (I + 1) * ts ≤ p.nTargetTimespan + 20 * ts := by nlinarith
  have hMu : toU64 ((I - 1) * ts + act + act) = ((I - 1) * ts + act + act).toNat :=
    toU64_eq_toNat _ hM0 (by omega)
  have hDu : toU64 ((I + 1) * ts) = ((I + 1) * ts).toNat :=
    toU64_eq_toNat _ (le_of_lt hD0) (by omega)
  have h2act : (I - 1) * ts + 2 * act = (I - 1) * ts + act + act := by ring
  have hmod : ((setCompact last.nBits).1 * ((I - 1) * ts + act + act).toNat) % U256M
      = (setCompact last.nBits).1 * ((I - 1) * ts + act + act).toNat := by
    apply Nat.mod_eq_of_lt
    calc (setCompact last.nBits).1 * ((I - 1) * ts + act + act).toNat
        ≤ (setCompact last.nBits).1 * (p.nTargetTimespan + 20 * ts).toNat := by
          apply Nat.mul_le_mul_left
          omega
      _ < U256M := hprod
  cases hpos : last.isProofOfStake with
  | false =>
    simp only [hpos, Bool.false_eq_true, if_false] at hflag
    simp only [CalculateNextTargetRequired, specNextTarget, hpos, hflag,
      Bool.not_false, Bool.true_and, Bool.false_and, if_false, Bool.false_eq_true]
    rw [hactual, hMu, hDu, h2act, hmod]
  | true =>
    simp only [hpos, if_true] at hflag
    simp only [CalculateNextTargetRequired, specNextTarget, hpos, hflag,
      Bool.not_true, Bool.false_and, Bool.and_false, if_false, Bool.false_eq_true]
    rw [hactual, hMu, hDu, h2act, hmod]

/-- A block and parameter set for concrete evaluation of the retarget
computation (spacing 64, timespan 960, the S6 shape). -/
def wBlock : BlockIndexData :=
  { nBits := 0x1d00ffff, nTime := 640, isProofOfStake := false }

def wParams : ConsensusParams :=
  { powLimit := 2 ^ 240
    posLimit := 2 ^ 240
    fPowNoRetargeting := false
    fPosNoRetargeting := false
    nTargetSpacing := 64
    nTargetTimespan := 960 }

/-- C4 witness: the retarget formula evaluated on a concrete PoW block with
spacing 64 and timespan 960. -/
theorem calculateNextTarget_spec_witness :
    (0 : Int) < wParams.nTargetSpacing ∧
    CalculateNextTargetRequired wBlock 0 wParams
      = specNextTarget (setCompact wBlock.nBits).1 wBlock.nTime 0
          (if wBlock.isProofOfStake then wParams.posLimit else wParams.powLimit)
          wParams.nTargetSpacing wParams.nTargetTimespan :=
  ⟨by decide,
   calculateNextTarget_spec wBlock 0 wParams (by decide) (by decide) (by decide)
     (by decide) (by decide)⟩

/-- When the matching no-retargeting flag is set, the inner retarget
computation returns the block's own nBits. -/
theorem calculateNextTarget_flag (last : BlockIndexData) (ft : Int)
    (p : ConsensusParams)
    (hflag : (if last.isProofOfStake then p.fPosNoRetargeting
              else p.fPowNoRetargeting) = true) :
    CalculateNextTargetRequired last ft p = last.nBits := by
  unfold CalculateNextTargetRequired
  cases hpos : last.isProofOfStake with
  | false =>
    simp only [hpos, Bool.false_eq_true, if_false] at hflag
    simp [hpos, hflag]
  | true =>
    simp only [hpos, if_true] at hflag
    simp [hpos, hflag]

theorem getLastBlockIndex_kind (c : List BlockIndexData) (fPoS : Bool)
    (pb : BlockIndexData) (rest : List BlockIndexData) :
    GetLastBlockIndex c fPoS = pb :: rest → rest ≠ [] →
    pb.isProofOfStake = fPoS := by
  induction c with
  | nil => intro h hne; exact absurd h (by simp [GetLastBlockIndex])
  | cons b cr ih =>
    intro h hne
    by_cases hemp : cr.isEmpty
    · rw [GetLastBlockIndex, if_pos hemp] at h
      obtain ⟨hb, hrest⟩ : b = pb ∧ cr = rest := by
        constructor <;> injection h
      rw [List.isEmpty_iff] at hemp
      rw [← hrest, hemp] at hne
      exact absurd rfl hne
    · by_cases hkind : b.isProofOfStake = fPoS
      · rw [GetLastBlockIndex, if_neg hemp, if_pos hkind] at h
        obtain hb : b = pb := by injection h
        rw [← hb]
        exact hkind
      · rw [GetLastBlockIndex, if_neg hemp, if_neg hkind] at h
        exact ih h hne

/-- C8 (amended): when the no-retargeting flag matching the block kind is
set and the chain actually reaches the retarget computation — the latest
block of the kind exists below the tip with a predecessor, and the
latest-but-one block of the kind also has a predecessor — the next-target
computation returns the nBits of the latest block of that kind unchanged.
With fewer such blocks, GetNextTargetRequired returns the target-limit
compact regardless of the flag. -/
theorem getNextTarget_noRetargeting (c : List BlockIndexData) (fPoS : Bool)
    (p : ConsensusParams) (pb ppb : BlockIndexData)
    (prest pprest : List BlockIndexData)
    (hc : c ≠ [])
    (hprev : GetLastBlockIndex c fPoS = pb :: prest)
    (hprest : prest ≠ [])
    (hpp : GetLastBlockIndex prest fPoS = ppb :: pprest)
    (hpprest : pprest ≠ [])
    (hflag : (if fPoS then p.fPosNoRetargeting else p.fPowNoRetargeting) = true) :
    GetNextTargetRequired c fPoS p = pb.nBits := by
  have hkind : pb.isProofOfStake = fPoS := getLastBlockIndex_kind c fPoS pb prest hprev hprest
  obtain ⟨q, qs, rfl⟩ : ∃ q qs, prest = q :: qs := by
    cases prest with
    | nil => exact absurd rfl hprest
    | cons q qs => exact ⟨q, qs, rfl⟩
  obtain ⟨r, rs, rfl⟩ : ∃ r rs, pprest = r :: rs := by
    cases pprest with
    | nil => exact absurd rfl hpprest
    | cons r rs => exact ⟨r, rs, rfl⟩
  cases c with
  | nil => exact absurd rfl hc
  | cons b cr =>
    unfold GetNextTargetRequired
    rw [hprev]
    dsimp only
    rw [hpp]
    dsimp only
    apply calculateNextTarget_flag
    rw [hkind]
    exact hflag

def retargetFlagParams : ConsensusParams :=
  { powLimit := 65535
    posLimit := 65535
    fPowNoRetargeting := true
    fPosNoRetargeting := true
    nTargetSpacing := 64
    nTargetTimespan := 960 }

def soloBlock : BlockIndexData :=
  { nBits := 0x12345678, nTime := 100, isProofOfStake := false }

/-- C8 counterexample: on a single-block chain with the PoW no-retargeting
flag set, the latest PoW block is the tip itself, yet GetNextTargetRequired
returns the powLimit compact instead of the tip's nBits. -/
theorem getNextTarget_noRetargeting_counterexample :
    retargetFlagParams.fPowNoRetargeting = true ∧
    GetLastBlockIndex [soloBlock] false = [soloBlock] ∧
    GetNextTargetRequired [soloBlock] false retargetFlagParams ≠ soloBlock.nBits := by
  refine ⟨rfl, rfl, by decide⟩

def chainBlock0 : BlockIndexData :=
  { nBits := 0x1e0fffff, nTime := 0, isProofOfStake := false }

def chainBlock1 : BlockIndexData :=
  { nBits := 0x1e0ffff0, nTime := 64, isProofOfStake := false }

def chainBlock2 : BlockIndexData :=
  { nBits := 0x1e0fff00, nTime := 128, isProofOfStake := false }

/-- C8 witness: on a three-block PoW chain with fPowNoRetargeting set, the
next target is the tip's nBits unchanged. -/
theorem getNextTarget_noRetargeting_witness :
    GetNextTargetRequired [chainBlock2, chainBlock1, chainBlock0] false
      retargetFlagParams = chainBlock2.nBits :=
  getNextTarget_noRetargeting [chainBlock2, chainBlock1, chainBlock0] false
    retargetFlagParams chainBlock2 chainBlock1 [chainBlock1, chainBlock0]
    [chainBlock0] (by decide) (by decide) (by decide) (by decide) (by decide)
    (by decide)

end Pow

namespace LRU

open AokChain

/-- Remove the (unique) list node holding the given key — the effect of
`cacheItemsList.erase(it)` where `it` is the map's stored iterator for
that key. -/
def removeKey {K V : Type} [DecidableEq K] : List (K × V) → K → List (K × V)
  | [], _ => []
  | p :: rest, k => if p.1 = k then rest else p :: removeKey rest k

/-- `CLRUCache` from tokentypes.h: `cacheItemsList` is the recency list
(front = most recently used), `cacheItemsMap` models the key → iterator
map by its key set (an iterator is exactly the unique list node carrying
the key), `maxSize` the bound. -/
structure CLRUCache (K V : Type) where
  cacheItemsList : List (K × V)
  cacheItemsMap : List K
  maxSize : Nat
deriving Repr, DecidableEq

/-- `CLRUCache(max_size)`. -/
def mkCache (K V : Type) (max_size : Nat) : CLRUCache K V :=
  { cacheItemsList := [], cacheItemsMap := [], maxSize := max_size }

/-- `CLRUCache::Put`: push the new pair to the front, drop the old node and
map entry if the key was present, (re)insert the map entry, and evict the
back of the list when the map has grown beyond `maxSize`. -/
def put {K V : Type} [DecidableEq K] (c : CLRUCache K V) (k : K) (v : V) :
    CLRUCache K V :=
  let present := k ∈ c.cacheItemsMap
  let tail2 := if present then removeKey c.cacheItemsList k else c.cacheItemsList
  let m2 := if present then c.cacheItemsMap.erase k else c.cacheItemsMap
  let m3 := if k ∈ m2 then m2 else k :: m2
  if m3.length > c.maxSize then
    { cacheItemsList := ((k, v) :: tail2).dropLast
      cacheItemsMap := m3.erase (((k, v) :: tail2).getLast (List.cons_ne_nil _ _)).1
      maxSize := c.maxSize }
  else
    { cacheItemsList := (k, v) :: tail2, cacheItemsMap := m3, maxSize := c.maxSize }

/-- `CLRUCache::Get`: a missing key throws (the state is unchanged and no
value is produced); a present key has its node spliced to the front of the
recency list and its value returned. -/
def get {K V : Type} [DecidableEq K] (c : CLRUCache K V) (k : K) :
    CLRUCache K V × Option V :=
  if k ∈ c.cacheItemsMap then
    match lookupKey c.cacheItemsList k with
    | some v =>
        ({ c with cacheItemsList := (k, v) :: removeKey c.cacheItemsList k }, some v)
    | none => (c, none)
  else (c, none)

/-- `CLRUCache::Erase`. -/
def eraseCache {K V : Type} [DecidableEq K] (c : CLRUCache K V) (k : K) :
    CLRUCache K V :=
  if k ∈ c.cacheItemsMap then
    { c with cacheItemsList := removeKey c.cacheItemsList k
             cacheItemsMap := c.cacheItemsMap.erase k }
  else c

/-- `CLRUCache::Clear`. -/
def clearCache {K V : Type} (c : CLRUCache K V) : CLRUCache K V :=
  { c with cacheItemsList := [], cacheItemsMap := [] }

/-- `CLRUCache::SetSize`: only the bound changes. -/
def setSizeCache {K V : Type} (c : CLRUCache K V) (size : Nat) : CLRUCache K V :=
  { c with maxSize := size }

/-- `CLRUCache::Size`. -/
def cacheSize {K V : Type} (c : CLRUCache K V) : Nat := c.cacheItemsMap.length

/-- `CLRUCache::MaxSize`. -/
def cacheMaxSize {K V : Type} (c : CLRUCache K V) : Nat := c.maxSize

/-- `CLRUCache::Exists`. -/
def cacheExists {K V : Type} [DecidableEq K] (c : CLRUCache K V) (k : K) : Bool :=
  k ∈ c.cacheItemsMap

/-- The public calls of the cache. -/
inductive CacheOp (K V : Type) where
  | put (k : K) (v : V)
  | get (k : K)
  | erase (k : K)
  | clear
  | setSize (n : Nat)

def applyCacheOp {K V : Type} [DecidableEq K] (c : CLRUCache K V) :
    CacheOp K V → CLRUCache K V
  | .put k v => put c k v
  | .get k => (get c k).1
  | .erase k => eraseCache c k
  | .clear => clearCache c
  | .setSize n => setSizeCache c n

def runCacheOps {K V : Type} [DecidableEq K] (c : CLRUCache K V) :
    List (CacheOp K V) → CLRUCache K V
  | [] => c
  | op :: rest => runCacheOps (applyCacheOp c op) rest

def isSetSizeOp {K V : Type} : CacheOp K V → Bool
  | .setSize _ => true
  | _ => false

/-- Map/list synchrony: the recency list's keys are duplicate-free and are
a permutation of the map's key set. -/
def CacheInv {K V : Type} (c : CLRUCache K V) : Prop :=
  (c.cacheItemsList.map Prod.fst).Nodup ∧
  (c.cacheItemsList.map Prod.fst).Perm c.cacheItemsMap

/-! ### Synchrony and size lemmas -/

theorem keys_removeKey {K V : Type} [DecidableEq K] (l : List (K × V)) (k : K) :
    (removeKey l k).map Prod.fst = (l.map Prod.fst).erase k := by
  induction l with
  | nil => rfl
  | cons p rest ih =>
    by_cases h : p.1 = k
    · simp [removeKey, h, List.erase_cons_head]
    · simp [removeKey, h, List.erase_cons, ih]

theorem erase_getLast_of_nodup {α : Type} [DecidableEq α] (l : List α)
    (h : l ≠ []) (hnd : l.Nodup) : l.erase (l.getLast h) = l.dropLast := by
  induction l with
  | nil => exact absurd rfl h
  | cons a t ih =>
    cases t with
    | nil => simp
    | cons b t2 =>
      have hmem : (b :: t2).getLast (List.cons_ne_nil _ _) ∈ b :: t2 :=
        List.getLast_mem _
      have hna : a ∉ b :: t2 := by
        simp only [List.nodup_cons] at hnd
        exact hnd.1
      have hne : (a :: b :: t2).getLast (List.cons_ne_nil _ _)
          = (b :: t2).getLast (List.cons_ne_nil _ _) := by
        simp [List.getLast_cons]
      rw [hne]
      have hga : (b :: t2).getLast (List.cons_ne_nil _ _) ≠ a := by
        intro hh
        rw [hh] at hmem
        exact hna hmem
      rw [List.erase_cons_tail, ih (List.cons_ne_nil _ _) (List.nodup_cons.mp hnd).2]
      · rfl
      · simp only [beq_iff_eq]
        exact fun hh => hga hh.symm

theorem getLast_fst {K V : Type} (l : List (K × V)) (h : l ≠ []) :
    (l.getLast h).1 = (l.map Prod.fst).getLast (by simpa using h) := by
  have h1 : l.getLast? = some (l.getLast h) := List.getLast?_eq_getLast l h
  have h2 : (l.map Prod.fst).getLast?
      = some ((l.map Prod.fst).getLast (by simpa using h)) :=
    List.getLast?_eq_getLast _ _
  have h3 : (l.map Prod.fst).getLast? = l.getLast?.map Prod.fst :=
    List.getLast?_map _ _
  rw [h1, h2] at h3
  simp only [Option.map_some'] at h3
  injection h3 with h4
  exact h4.symm

theorem not_mem_erase_self {α : Type} [DecidableEq α] {l : List α}
    (hnd : l.Nodup) (a : α) : a ∉ l.erase a := by
  intro h
  exact absurd ((List.Nodup.mem_erase_iff hnd).mp h).1 (by simp)

theorem keys_dropLast {K V : Type} (l : List (K × V)) :
    l.dropLast.map Prod.fst = (l.map Prod.fst).dropLast := by
  induction l with
  | nil => rfl
  | cons p t ih =>
    cases t with
    | nil => rfl
    | cons q t2 =>
      simp only [List.dropLast_cons₂, List.map_cons] at ih ⊢
      rw [ih]

/-- Both branches of Put's eviction step preserve the invariant and bound
the map size. -/
theorem cacheInv_evict {K V : Type} [DecidableEq K]
    (l2 : List (K × V)) (m3 : List K) (maxSize : Nat)
    (hne : l2 ≠ [])
    (hnd : (l2.map Prod.fst).Nodup) (hperm : (l2.map Prod.fst).Perm m3) :
    CacheInv (if m3.length > maxSize then
      { cacheItemsList := l2.dropLast
        cacheItemsMap := m3.erase ((l2.getLast hne).1)
        maxSize := maxSize }
      else { cacheItemsList := l2, cacheItemsMap := m3, maxSize := maxSize }) ∧
    (if m3.length > maxSize then
      { cacheItemsList := l2.dropLast
        cacheItemsMap := m3.erase ((l2.getLast hne).1)
        maxSize := maxSize }
      else
        { cacheItemsList := l2, cacheItemsMap := m3,
          maxSize := maxSize } : CLRUCache K V).cacheItemsMap.length
      ≤ max maxSize (m3.length - 1) := by
  by_cases hlen : m3.length > maxSize
  · rw [if_pos hlen]
    have hkne : l2.map Prod.fst ≠ [] := by simpa using hne
    have hlast : (l2.getLast hne).1 = (l2.map Prod.fst).getLast hkne :=
      getLast_fst l2 hne
    have hlmem : (l2.map Prod.fst).getLast hkne ∈ l2.map Prod.fst :=
      List.getLast_mem hkne
    have hm3mem : (l2.getLast hne).1 ∈ m3 := by
      rw [hlast]
      exact hperm.mem_iff.mp hlmem
    refine ⟨⟨?_, ?_⟩, ?_⟩
    · show (l2.dropLast.map Prod.fst).Nodup
      rw [keys_dropLast]
      exact List.Nodup.sublist (List.dropLast_sublist _) hnd
    · show (l2.dropLast.map Prod.fst).Perm (m3.erase ((l2.getLast hne).1))
      rw [keys_dropLast,
        ← erase_getLast_of_nodup (l2.map Prod.fst) hkne hnd, hlast]
      exact hperm.erase _
    · show (m3.erase ((l2.getLast hne).1)).length ≤ max maxSize (m3.length - 1)
      rw [List.length_erase_of_mem hm3mem]
      omega
  · rw [if_neg hlen]
    exact ⟨⟨hnd, hperm⟩, by simp; omega⟩

theorem cacheInv_put {K V : Type} [DecidableEq K] (c : CLRUCache K V)
    (k : K) (v : V) (hinv : CacheInv c) :
    CacheInv (put c k v) ∧
    (c.cacheItemsMap.length ≤ c.maxSize →
      (put c k v).cacheItemsMap.length ≤ c.maxSize) := by
  obtain ⟨hnd, hperm⟩ := hinv
  have hndm : c.cacheItemsMap.Nodup := hperm.nodup hnd
  by_cases hp : k ∈ c.cacheItemsMap
  · have hknotm2 : k ∉ c.cacheItemsMap.erase k := not_mem_erase_self hndm k
    have hkeystail : ((k, v) :: removeKey c.cacheItemsList k).map Prod.fst
        = k :: (c.cacheItemsList.map Prod.fst).erase k := by
      rw [List.map_cons, keys_removeKey]
    have hnd2 : (((k, v) :: removeKey c.cacheItemsList k).map Prod.fst).Nodup := by
      rw [hkeystail]
      exact List.nodup_cons.mpr ⟨not_mem_erase_self hnd k, hnd.erase k⟩
    have hperm2 : (((k, v) :: removeKey c.cacheItemsList k).map Prod.fst).Perm
        (k :: c.cacheItemsMap.erase k) := by
      rw [hkeystail]
      exact List.Perm.cons k (hperm.erase k)
    have hmain := cacheInv_evict ((k, v) :: removeKey c.cacheItemsList k)
      (k :: c.cacheItemsMap.erase k) c.maxSize (List.cons_ne_nil _ _) hnd2 hperm2
    have hput : put c k v = (if (k :: c.cacheItemsMap.erase k).length > c.maxSize then
        { cacheItemsList := ((k, v) :: removeKey c.cacheItemsList k).dropLast
          cacheItemsMap := (k :: c.cacheItemsMap.erase k).erase
            ((((k, v) :: removeKey c.cacheItemsList k).getLast (List.cons_ne_nil _ _)).1)
          maxSize := c.maxSize }
        else { cacheItemsList := (k, v) :: removeKey c.cacheItemsList k
               cacheItemsMap := k :: c.cacheItemsMap.erase k
               maxSize := c.maxSize }) := by
      simp only [put, if_pos hp, if_neg hknotm2]
    rw [hput]
    refine ⟨hmain.1, fun hsz => ?_⟩
    have hlen2 : (k :: c.cacheItemsMap.erase k).length - 1 ≤ c.maxSize := by
      simp only [List.length_cons, List.length_erase_of_mem hp]
      have : 1 ≤ c.cacheItemsMap.length := List.length_pos_of_mem hp
      omega
    have := hmain.2
    omega
  · have hkeystail : ((k, v) :: c.cacheItemsList).map Prod.fst
        = k :: c.cacheItemsList.map Prod.fst := List.map_cons _ _ _
    have hknotkeys : k ∉ c.cacheItemsList.map Prod.fst := by
      intro hmem
      exact hp (hperm.mem_iff.mp hmem)
    have hnd2 : (((k, v) :: c.cacheItemsList).map Prod.fst).Nodup := by
      rw [hkeystail]
      exact List.nodup_cons.mpr ⟨hknotkeys, hnd⟩
    have hperm2 : (((k, v) :: c.cacheItemsList).map Prod.fst).Perm
        (k :: c.cacheItemsMap) := by
      rw [hkeystail]
      exact List.Perm.cons k hperm
    have hmain := cacheInv_evict ((k, v) :: c.cacheItemsList)
      (k :: c.cacheItemsMap) c.maxSize (List.cons_ne_nil _ _) hnd2 hperm2
    have hput : put c k v = (if (k :: c.cacheItemsMap).length > c.maxSize then
        { cacheItemsList := ((k, v) :: c.cacheItemsList).dropLast
          cacheItemsMap := (k :: c.cacheItemsMap).erase
            ((((k, v) :: c.cacheItemsList).getLast (List.cons_ne_nil _ _)).1)
          maxSize := c.maxSize }
        else { cacheItemsList := (k, v) :: c.cacheItemsList
               cacheItemsMap := k :: c.cacheItemsMap
               maxSize := c.maxSize }) := by
      simp only [put, if_neg hp]
    rw [hput]
    refine ⟨hmain.1, fun hsz => ?_⟩
    have := hmain.2
    simp only [List.length_cons] at this ⊢
    omega

theorem cacheInv_get {K V : Type} [DecidableEq K] (c : CLRUCache K V)
    (k : K) (hinv : CacheInv c) :
    CacheInv (get c k).1 ∧ (get c k).1.cacheItemsMap = c.cacheItemsMap ∧
    (get c k).1.maxSize = c.maxSize := by
  obtain ⟨hnd, hperm⟩ := hinv
  unfold get
  by_cases hp : k ∈ c.cacheItemsMap
  · rw [if_pos hp]
    cases hl : lookupKey c.cacheItemsList k with
    | none => exact ⟨⟨hnd, hperm⟩, rfl, rfl⟩
    | some v =>
      have hkeys : ((k, v) :: removeKey c.cacheItemsList k).map Prod.fst
          = k :: (c.cacheItemsList.map Prod.fst).erase k := by
        rw [List.map_cons, keys_removeKey]
      have hkmem : k ∈ c.cacheItemsList.map Prod.fst := hperm.mem_iff.mpr hp
      refine ⟨⟨?_, ?_⟩, rfl, rfl⟩
      · show (((k, v) :: removeKey c.cacheItemsList k).map Prod.fst).Nodup
        rw [hkeys]
        exact List.nodup_cons.mpr ⟨not_mem_erase_self hnd k, hnd.erase k⟩
      · show (((k, v) :: removeKey c.cacheItemsList k).map Prod.fst).Perm
          c.cacheItemsMap
        rw [hkeys]
        exact ((List.perm_cons_erase hkmem).symm).trans hperm
  · rw [if_neg hp]
    exact ⟨⟨hnd, hperm⟩, rfl, rfl⟩

theorem cacheInv_eraseCache {K V : Type} [DecidableEq K] (c : CLRUCache K V)
    (k : K) (hinv : CacheInv c) :
    CacheInv (eraseCache c k) ∧
    (eraseCache c k).cacheItemsMap.length ≤ c.cacheItemsMap.length ∧
    (eraseCache c k).maxSize = c.maxSize := by
  obtain ⟨hnd, hperm⟩ := hinv
  unfold eraseCache
  by_cases hp : k ∈ c.cacheItemsMap
  · rw [if_pos hp]
    refine ⟨⟨?_, ?_⟩, ?_, rfl⟩
    · show ((removeKey c.cacheItemsList k).map Prod.fst).Nodup
      rw [keys_removeKey]
      exact hnd.erase k
    · show ((removeKey c.cacheItemsList k).map Prod.fst).Perm
        (c.cacheItemsMap.erase k)
      rw [keys_removeKey]
      exact hperm.erase k
    · show (c.cacheItemsMap.erase k).length ≤ c.cacheItemsMap.length
      exact List.length_erase_le _ _
  · rw [if_neg hp]
    exact ⟨⟨hnd, hperm⟩, le_refl _, rfl⟩

theorem put_maxSize {K V : Type} [DecidableEq K] (c : CLRUCache K V)
    (k : K) (v : V) : (put c k v).maxSize = c.maxSize := by
  unfold put
  rw [apply_ite (fun x : CLRUCache K V => x.maxSize)]
  simp

theorem cacheInv_applyOp {K V : Type} [DecidableEq K] (c : CLRUCache K V)
    (op : CacheOp K V) (hinv : CacheInv c) :
    CacheInv (applyCacheOp c op) ∧
    (isSetSizeOp op = false → c.cacheItemsMap.length ≤ c.maxSize →
      (applyCacheOp c op).cacheItemsMap.length ≤ (applyCacheOp c op).maxSize) := by
  cases op with
  | put k v =>
    have h := cacheInv_put c k v hinv
    refine ⟨h.1, fun _ hsz => ?_⟩
    show (put c k v).cacheItemsMap.length ≤ (put c k v).maxSize
    rw [put_maxSize]
    exact h.2 hsz
  | get k =>
    have h := cacheInv_get c k hinv
    refine ⟨h.1, fun _ hsz => ?_⟩
    show (get c k).1.cacheItemsMap.length ≤ (get c k).1.maxSize
    rw [h.2.1, h.2.2]
    exact hsz
  | erase k =>
    have h := cacheInv_eraseCache c k hinv
    refine ⟨h.1, fun _ hsz => ?_⟩
    show (eraseCache c k).cacheItemsMap.length ≤ (eraseCache c k).maxSize
    rw [h.2.2]
    omega
  | clear =>
    refine ⟨⟨?_, ?_⟩, fun _ _ => ?_⟩ <;> simp [applyCacheOp, clearCache, CacheInv]
  | setSize n =>
    refine ⟨hinv, fun hop => ?_⟩
    simp [isSetSizeOp] at hop

theorem cacheInv_runOps {K V : Type} [DecidableEq K] (c : CLRUCache K V)
    (ops : List (CacheOp K V)) (hinv : CacheInv c) :
    CacheInv (runCacheOps c ops) ∧
    ((∀ op ∈ ops, isSetSizeOp op = false) → c.cacheItemsMap.length ≤ c.maxSize →
      (runCacheOps c ops).cacheItemsMap.length ≤ (runCacheOps c ops).maxSize) := by
  induction ops generalizing c with
  | nil => exact ⟨hinv, fun _ h => h⟩
  | cons op rest ih =>
    have hstep := cacheInv_applyOp c op hinv
    have hrest := ih (applyCacheOp c op) hstep.1
    refine ⟨hrest.1, fun hall hsz => ?_⟩
    have hop : isSetSizeOp op = false := hall op (by simp)
    exact hrest.2 (fun o ho => hall o (by simp [ho])) (hstep.2 hop hsz)

/-! ### Claim theorems for the LRU cache -/

/-- C9 (amended): for every cache built from `CLRUCache(N)` by Put, Get,
Erase, Clear and SetSize calls, the recency list and the key → iterator
map always hold exactly the same set of keys; and for call sequences
containing no SetSize, the cache never holds more than MaxSize() entries
(Put evicts the least-recently-used node on overflow). SetSize changes
only the bound, so it can leave Size() above MaxSize(). -/
theorem lruCache_spec {K V : Type} [DecidableEq K] (N : Nat)
    (ops : List (CacheOp K V)) :
    (∀ kk, kk ∈ (runCacheOps (mkCache K V N) ops).cacheItemsList.map Prod.fst
        ↔ kk ∈ (runCacheOps (mkCache K V N) ops).cacheItemsMap) ∧
    ((∀ op ∈ ops, isSetSizeOp op = false) →
      cacheSize (runCacheOps (mkCache K V N) ops)
        ≤ cacheMaxSize (runCacheOps (mkCache K V N) ops)) := by
  have h := cacheInv_runOps (mkCache K V N) ops ⟨by simp [mkCache], by simp [mkCache]⟩
  constructor
  · intro kk
    exact h.1.2.mem_iff
  · intro hall
    exact h.2 hall (by simp [mkCache])

/-- C9 witness: three Puts into a 2-entry cache evict the LRU entry and
keep Size within MaxSize; key 1 is gone, keys 2 and 3 remain in both
structures. -/
theorem lruCache_spec_witness :
    (cacheSize (runCacheOps (mkCache Nat Nat 2)
        [CacheOp.put 1 10, CacheOp.put 2 20, CacheOp.put 3 30])
      ≤ cacheMaxSize (runCacheOps (mkCache Nat Nat 2)
        [CacheOp.put 1 10, CacheOp.put 2 20, CacheOp.put 3 30])) ∧
    (3 ∈ (runCacheOps (mkCache Nat Nat 2)
        [CacheOp.put 1 10, CacheOp.put 2 20, CacheOp.put 3 30]).cacheItemsList.map
          Prod.fst
      ↔ 3 ∈ (runCacheOps (mkCache Nat Nat 2)
        [CacheOp.put 1 10, CacheOp.put 2 20, CacheOp.put 3 30]).cacheItemsMap) :=
  ⟨(lruCache_spec 2 _).2 (by decide), (lruCache_spec 2 _).1 3⟩

/-- C9 counterexample: SetSize only rebinds the limit, so shrinking it
below the current size leaves the cache holding more than MaxSize()
entries. -/
theorem lruCache_counterexample :
    cacheSize (runCacheOps (mkCache Nat Nat 2)
      [CacheOp.put 1 10, CacheOp.put 2 20, CacheOp.setSize 1]) = 2 ∧
    cacheMaxSize (runCacheOps (mkCache Nat Nat 2)
      [CacheOp.put 1 10, CacheOp.put 2 20, CacheOp.setSize 1]) = 1 := by
  refine ⟨by decide, by decide⟩

end LRU

namespace Miner

open AokChain

/-- A mempool entry as BlockAssembler reads it. `ancestors` is the set of
in-mempool ancestor txids — the closure that `CTxMemPool::
CalculateMemPoolAncestors` (txmempool.cpp, not in the corpus) computes by
walking parents; its closure properties are stated in `WfPool` below,
modelled from the spec's mempool invariants. `final` abstracts
`IsFinalTx(tx, nHeight, nLockTimeCutoff)`. `sigOps` is the C++ int64
`GetSigOpCost()`, modelled as Nat (it is a count, never negative); the
`...WithAncestors` aggregates are the entry's cached package statistics. -/
structure MemEntry where
  txid : Nat
  fee : Int
  modFee : Int
  size : Nat
  weight : Nat
  sigOps : Nat
  sizeWithAncestors : Nat
  modFeesWithAncestors : Int
  sigOpCostWithAncestors : Nat
  countWithAncestors : Nat
  final : Bool
  ancestors : List Nat
deriving Repr, DecidableEq

/-- Look a txid up in the pool (the mempool's primary index). -/
def findEntry (pool : List MemEntry) (t : Nat) : Option MemEntry :=
  pool.find? fun e => e.txid = t

def sizeOfTx (pool : List MemEntry) (t : Nat) : Nat :=
  ((findEntry pool t).map MemEntry.size).getD 0

def weightOfTx (pool : List MemEntry) (t : Nat) : Nat :=
  ((findEntry pool t).map MemEntry.weight).getD 0

def sigOfTx (pool : List MemEntry) (t : Nat) : Nat :=
  ((findEntry pool t).map MemEntry.sigOps).getD 0

def countOfTx (pool : List MemEntry) (t : Nat) : Nat :=
  ((findEntry pool t).map MemEntry.countWithAncestors).getD 0

def sumSize (pool : List MemEntry) (ts : List Nat) : Nat :=
  (ts.map (sizeOfTx pool)).sum

def sumWeight (pool : List MemEntry) (ts : List Nat) : Nat :=
  (ts.map (weightOfTx pool)).sum

def sumSig (pool : List MemEntry) (ts : List Nat) : Nat :=
  (ts.map (sigOfTx pool)).sum

/-- `CTxMemPoolModifiedEntry`: an entry whose cached ancestor aggregates
have been reduced by the statistics of ancestors already in the block.
The C++ fields are uint64/int64; the subtractions never underflow in
reachable states (`ModMapInv` below), where Nat truncated subtraction and
the C++ wrap agree. -/
structure ModEntry where
  txid : Nat
  nSizeWithAncestors : Nat
  nModFeesWithAncestors : Int
  nSigOpCostWithAncestors : Nat
deriving Repr, DecidableEq

/-- `CTxMemPoolModifiedEntry(iter)`: cache the pool entry's aggregates. -/
def modOfEntry (e : MemEntry) : ModEntry :=
  { txid := e.txid
    nSizeWithAncestors := e.sizeWithAncestors
    nModFeesWithAncestors := e.modFeesWithAncestors
    nSigOpCostWithAncestors := e.sigOpCostWithAncestors }

/-- `update_for_parent_inclusion(it)`: subtract the included ancestor's
statistics. -/
def subModEntry (me : ModEntry) (it : MemEntry) : ModEntry :=
  { me with nSizeWithAncestors := me.nSizeWithAncestors - it.size
            nModFeesWithAncestors := me.nModFeesWithAncestors - it.modFee
            nSigOpCostWithAncestors := me.nSigOpCostWithAncestors - it.sigOps }

def findMod (mp : List ModEntry) (t : Nat) : Option ModEntry :=
  mp.find? fun me => me.txid = t

def eraseMod (mp : List ModEntry) (t : Nat) : List ModEntry :=
  mp.filter fun me => me.txid ≠ t

def replaceMod (mp : List ModEntry) (me : ModEntry) : List ModEntry :=
  mp.map fun x => if x.txid = me.txid then me else x

/-- Modelled from the spec: `CTxMemPool::CalculateDescendants` (txmempool.cpp,
not in the corpus) populates the closure of an entry under the children
relation, the entry itself included — here, everything that has the given
txid among its ancestors. -/
def descendantsOf (pool : List MemEntry) (p : Nat) : List MemEntry :=
  pool.filter fun d => p ∈ d.ancestors ∨ d.txid = p

/-- The inner loop of `UpdatePackagesForAdded`: one descendant `d` of the
added entry `it` is either skipped (already added) or upserted into the
modified set with `it`'s statistics subtracted. -/
def updateOneDesc (added : List Nat) (it : MemEntry) (mp2 : List ModEntry)
    (d : MemEntry) : List ModEntry :=
  if d.txid ∈ added then mp2
  else
    match findMod mp2 d.txid with
    | none => mp2 ++ [subModEntry (modOfEntry d) it]
    | some me => replaceMod mp2 (subModEntry me it)

/-- The outer-loop body of `UpdatePackagesForAdded` for one added txid. -/
def updateForOne (pool : List MemEntry) (added : List Nat)
    (mp1 : List ModEntry) (p : Nat) : List ModEntry :=
  match findEntry pool p with
  | none => mp1
  | some it => (descendantsOf pool p).foldl (updateOneDesc added it) mp1

/-- `BlockAssembler::UpdatePackagesForAdded`: push every not-yet-added
descendant of each newly added entry into the modified set, reducing its
aggregates by the added ancestor's statistics. -/
def updateForAdded (pool : List MemEntry) (added : List Nat)
    (mp : List ModEntry) : List ModEntry :=
  added.foldl (updateForOne pool added) mp

/-- Modelled from the spec: the mempool's `ancestor_score` comparator —
ancestor feerate by cross-multiplication, then higher ancestor fee, then
smaller ancestor size, then txid. Returns true when `a` sorts strictly
before (scores better than) `b`. -/
def ancScoreBefore (a b : ModEntry) : Bool :=
  let f1 := a.nModFeesWithAncestors * (b.nSizeWithAncestors : Int)
  let f2 := b.nModFeesWithAncestors * (a.nSizeWithAncestors : Int)
  if f1 ≠ f2 then f1 > f2
  else if a.nModFeesWithAncestors ≠ b.nModFeesWithAncestors then
    a.nModFeesWithAncestors > b.nModFeesWithAncestors
  else if a.nSizeWithAncestors ≠ b.nSizeWithAncestors then
    a.nSizeWithAncestors < b.nSizeWithAncestors
  else a.txid < b.txid

/-- `mapModifiedTx.get<ancestor_score>().begin()`: the best entry of the
modified set. -/
def bestMod : List ModEntry → Option ModEntry
  | [] => none
  | m :: rest =>
    match bestMod rest with
    | none => some m
    | some b => if ancScoreBefore b m then some b else some m

/-- The assembler options: the clamped weight cap, the sigop cap
(`MAX_BLOCK_SIGOPS_COST`, a constant defined in consensus/consensus.h
which is not in the corpus), and `blockMinFeeRate.GetFee` (policy/feerate,
not in the corpus), both modelled from the spec as parameters. -/
structure AsmOptions where
  nBlockMaxWeight : Nat
  maxSigops : Nat
  minFee : Nat → Int

/-- The assembler's per-template state (`resetBlock` fields; `inBlock` is
kept in template order, i.e. the order `AddToBlock` appends). -/
structure BState where
  inBlock : List Nat
  nBlockWeight : Nat
  nBlockSigOpsCost : Nat
  nBlockTx : Nat
  nFees : Int
deriving Repr, DecidableEq

/-- `BlockAssembler::resetBlock`: 4000 weight and 400 sigops are reserved
for the coinbase. -/
def resetBlock : BState :=
  { inBlock := [], nBlockWeight := 4000, nBlockSigOpsCost := 400
    nBlockTx := 0, nFees := 0 }

/-- `BlockAssembler::TestPackage` (WITNESS_SCALE_FACTOR = 4). -/
def TestPackage (st : BState) (opts : AsmOptions) (packageSize : Nat)
    (packageSigOpsCost : Nat) : Bool :=
  if st.nBlockWeight + 4 * packageSize ≥ opts.nBlockMaxWeight then false
  else if st.nBlockSigOpsCost + packageSigOpsCost ≥ opts.maxSigops then false
  else true

/-- `BlockAssembler::AddToBlock`. -/
def addToBlock (st : BState) (e : MemEntry) : BState :=
  { inBlock := st.inBlock ++ [e.txid]
    nBlockWeight := st.nBlockWeight + e.weight
    nBlockSigOpsCost := st.nBlockSigOpsCost + e.sigOps
    nBlockTx := st.nBlockTx + 1
    nFees := st.nFees + e.fee }

/-- `BlockAssembler::SkipMapTxEntry`. -/
def SkipEntry (e : MemEntry) (mp : List ModEntry) (failed : List Nat)
    (st : BState) : Bool :=
  (findMod mp e.txid).isSome || decide (e.txid ∈ st.inBlock) ||
    decide (e.txid ∈ failed)

/-- Modelled from the spec: `CompareTxIterByAncestorCount` sorts the
package by ancestor count, a valid topological order. Insertion sort by
`countWithAncestors`. -/
def insertByCount (e : MemEntry) : List MemEntry → List MemEntry
  | [] => [e]
  | x :: xs =>
      if e.countWithAncestors ≤ x.countWithAncestors then e :: x :: xs
      else x :: insertByCount e xs

def sortByCount : List MemEntry → List MemEntry
  | [] => []
  | x :: xs => insertByCount x (sortByCount xs)

/-- Insertion sort for the mempool's ancestor_score iteration order. -/
def insertByScore (e : MemEntry) : List MemEntry → List MemEntry
  | [] => [e]
  | x :: xs =>
      if ancScoreBefore (modOfEntry e) (modOfEntry x) then e :: x :: xs
      else x :: insertByScore e xs

def sortByScore : List MemEntry → List MemEntry
  | [] => []
  | x :: xs => insertByScore x (sortByScore xs)

/-- One iteration of the `addPackageTxs` while-loop either stops with a
final state or continues with updated loop variables. -/
inductive StepResult where
  | stop (st : BState)
  | next (mi : List MemEntry) (mp : List ModEntry) (failed : List Nat)
      (consec : Int) (st : BState)

/-- The body of `BlockAssembler::addPackageTxs`'s while-loop. `mi` is the
rest of the mempool's ancestor_score sequence. The C++ asserts
`!inBlock.count(iter)`; the model stops (the process would abort) in that
case. -/
def step (pool : List MemEntry) (opts : AsmOptions) (mi : List MemEntry)
    (mp : List ModEntry) (failed : List Nat) (consec : Int) (st : BState) :
    StepResult :=
  if mi.isEmpty ∧ mp.isEmpty then .stop st
  else
    match mi with
    | e :: rest =>
      if SkipEntry e mp failed st then .next rest mp failed consec st
      else
        match bestMod mp with
        | some mb =>
          if ancScoreBefore mb (modOfEntry e) then
            match findEntry pool mb.txid with
            | some em => stepBody pool opts (e :: rest) mp failed consec st em true (some mb)
            | none => .stop st
          else stepBody pool opts rest mp failed consec st e false none
        | none => stepBody pool opts rest mp failed consec st e false none
    | [] =>
      match bestMod mp with
      | some mb =>
        match findEntry pool mb.txid with
        | some em => stepBody pool opts [] mp failed consec st em true (some mb)
        | none => .stop st
      | none => .stop st
where
  /-- The loop body after the candidate (`iter`, `fUsingModified`) has
  been selected. -/
  stepBody (pool : List MemEntry) (opts : AsmOptions) (mi : List MemEntry)
      (mp : List ModEntry) (failed : List Nat) (consec : Int) (st : BState)
      (iter : MemEntry) (fUsing : Bool) (moditOpt : Option ModEntry) :
      StepResult :=
    if iter.txid ∈ st.inBlock then .stop st
    else
      let packageSize := match fUsing, moditOpt with
        | true, some mb => mb.nSizeWithAncestors
        | _, _ => iter.sizeWithAncestors
      let packageFees := match fUsing, moditOpt with
        | true, some mb => mb.nModFeesWithAncestors
        | _, _ => iter.modFeesWithAncestors
      let packageSigOpsCost := match fUsing, moditOpt with
        | true, some mb => mb.nSigOpCostWithAncestors
        | _, _ => iter.sigOpCostWithAncestors
      if packageFees < opts.minFee packageSize then .stop st
      else if TestPackage st opts packageSize packageSigOpsCost = false then
        let mp1 := cond fUsing (eraseMod mp iter.txid) mp
        let failed1 := cond fUsing (iter.txid :: failed) failed
        if consec + 1 > 1000 ∧ st.nBlockWeight > opts.nBlockMaxWeight - 4000 then
          .stop st
        else .next mi mp1 failed1 (consec + 1) st
      else
        let ancIds := iter.ancestors.filter fun a => a ∉ st.inBlock
        let pkgIds := ancIds ++ [iter.txid]
        let pkgEntries := pkgIds.filterMap (findEntry pool)
        if pkgEntries.all MemEntry.final = false then
          let mp1 := cond fUsing (eraseMod mp iter.txid) mp
          let failed1 := cond fUsing (iter.txid :: failed) failed
          .next mi mp1 failed1 consec st
        else
          let sortedEntries := sortByCount pkgEntries
          let st1 := sortedEntries.foldl addToBlock st
          let mp1 := sortedEntries.foldl (fun m se => eraseMod m se.txid) mp
          let mp2 := updateForAdded pool pkgIds mp1
          .next mi mp2 failed 0 st1

/-- The while-loop, fuelled (the C++ loop terminates; the claims are loop
invariants and hold for every fuel). -/
def addLoop (pool : List MemEntry) (opts : AsmOptions) :
    Nat → List MemEntry → List ModEntry → List Nat → Int → BState → BState
  | 0, _, _, _, _, st => st
  | fuel + 1, mi, mp, failed, consec, st =>
    match step pool opts mi mp failed consec st with
    | .stop st' => st'
    | .next mi' mp' failed' consec' st' =>
        addLoop pool opts fuel mi' mp' failed' consec' st'

/-- `BlockAssembler::addPackageTxs` starting from `resetBlock` (as
`CreateNewBlock` does): iterate the ancestor_score order with an empty
modified set and failure set. -/
def addPackageTxs (pool : List MemEntry) (opts : AsmOptions) : BState :=
  addLoop pool opts ((pool.length + 2) * (pool.length + 2)) (sortByScore pool)
    (updateForAdded pool [] []) [] 0 resetBlock

/-! ### Mempool well-formedness

The mempool maintains these invariants (spec §3, "Mempool entry"): txids
are unique, ancestor sets are closed under the ancestor relation and
acyclic (witnessed by the strictly increasing ancestor count), and the
cached aggregates equal the sums over the ancestor set. The weight/vsize
relation `weight ≤ 4 * size` comes from vsize = ceil(weight / 4). -/
def WfPool (pool : List MemEntry) : Prop :=
  (pool.map MemEntry.txid).Nodup ∧
  ∀ e ∈ pool,
    e.ancestors.Nodup ∧
    e.txid ∉ e.ancestors ∧
    (∀ a ∈ e.ancestors, ∃ ea ∈ pool, ea.txid = a ∧ ea.ancestors ⊆ e.ancestors ∧
       ea.countWithAncestors < e.countWithAncestors) ∧
    e.weight ≤ 4 * e.size ∧
    e.sizeWithAncestors = e.size + sumSize pool e.ancestors ∧
    e.sigOpCostWithAncestors = e.sigOps + sumSig pool e.ancestors

theorem mem_of_findEntry {pool : List MemEntry} {t : Nat} {e : MemEntry}
    (h : findEntry pool t = some e) : e ∈ pool ∧ e.txid = t := by
  unfold findEntry at h
  refine ⟨List.mem_of_find?_eq_some h, ?_⟩
  have := List.find?_some h
  simpa using this

theorem findEntry_self {pool : List MemEntry} {e : MemEntry}
    (hnd : (pool.map MemEntry.txid).Nodup) (hmem : e ∈ pool) :
    findEntry pool e.txid = some e := by
  induction pool with
  | nil => simp at hmem
  | cons x rest ih =>
    simp only [List.map_cons, List.nodup_cons] at hnd
    rcases List.mem_cons.mp hmem with rfl | hmem2
    · simp [findEntry, List.find?]
    · have hne : x.txid ≠ e.txid := by
        intro hh
        exact hnd.1 (hh ▸ List.mem_map_of_mem MemEntry.txid hmem2)
      have := ih hnd.2 hmem2
      unfold findEntry at this ⊢
      simp only [List.find?]
      rw [show decide (x.txid = e.txid) = false by simpa using hne]
      exact this

theorem sizeOfTx_eq {pool : List MemEntry} {e : MemEntry}
    (hnd : (pool.map MemEntry.txid).Nodup) (hmem : e ∈ pool) :
    sizeOfTx pool e.txid = e.size := by
  unfold sizeOfTx
  rw [findEntry_self hnd hmem]
  rfl

theorem weightOfTx_eq {pool : List MemEntry} {e : MemEntry}
    (hnd : (pool.map MemEntry.txid).Nodup) (hmem : e ∈ pool) :
    weightOfTx pool e.txid = e.weight := by
  unfold weightOfTx
  rw [findEntry_self hnd hmem]
  rfl

theorem sigOfTx_eq {pool : List MemEntry} {e : MemEntry}
    (hnd : (pool.map MemEntry.txid).Nodup) (hmem : e ∈ pool) :
    sigOfTx pool e.txid = e.sigOps := by
  unfold sigOfTx
  rw [findEntry_self hnd hmem]
  rfl

theorem sumSize_append (pool : List MemEntry) (xs ys : List Nat) :
    sumSize pool (xs ++ ys) = sumSize pool xs + sumSize pool ys := by
  simp [sumSize]

theorem sumWeight_append (pool : List MemEntry) (xs ys : List Nat) :
    sumWeight pool (xs ++ ys) = sumWeight pool xs + sumWeight pool ys := by
  simp [sumWeight]

theorem sumSig_append (pool : List MemEntry) (xs ys : List Nat) :
    sumSig pool (xs ++ ys) = sumSig pool xs + sumSig pool ys := by
  simp [sumSig]

theorem sumWeight_le_four_sumSize (pool : List MemEntry) (ids : List Nat)
    (h : ∀ t ∈ ids, weightOfTx pool t ≤ 4 * sizeOfTx pool t) :
    sumWeight pool ids ≤ 4 * sumSize pool ids := by
  induction ids with
  | nil => simp [sumWeight, sumSize]
  | cons t rest ih =>
    simp only [sumWeight, sumSize, List.map_cons, List.sum_cons] at ih ⊢
    have h1 := h t (by simp)
    have h2 := ih fun x hx => h x (by simp [hx])
    omega

theorem sumSize_filter_le (pool : List MemEntry) (ids : List Nat)
    (q : Nat → Prop) [DecidablePred q] :
    sumSize pool (ids.filter fun a => q a) ≤ sumSize pool ids := by
  induction ids with
  | nil => simp [sumSize]
  | cons t rest ih =>
    simp only [sumSize, List.filter_cons, List.map_cons, List.sum_cons] at ih ⊢
    by_cases hq : q t <;> simp [hq] <;> omega

theorem sumSig_filter_le (pool : List MemEntry) (ids : List Nat)
    (q : Nat → Prop) [DecidablePred q] :
    sumSig pool (ids.filter fun a => q a) ≤ sumSig pool ids := by
  induction ids with
  | nil => simp [sumSig]
  | cons t rest ih =>
    simp only [sumSig, List.filter_cons, List.map_cons, List.sum_cons] at ih ⊢
    by_cases hq : q t <;> simp [hq] <;> omega

theorem txid_inj {pool : List MemEntry} (hnd : (pool.map MemEntry.txid).Nodup)
    {a b : MemEntry} (ha : a ∈ pool) (hb : b ∈ pool) (h : a.txid = b.txid) :
    a = b := by
  have h1 := findEntry_self hnd ha
  have h2 := findEntry_self hnd hb
  rw [h] at h1
  rw [h1] at h2
  exact Option.some_inj.mp h2

theorem filter_notMem_append_singleton {anc cover : List Nat} {p : Nat}
    (hp : p ∉ anc) :
    (anc.filter fun a => a ∉ cover ++ [p]) = anc.filter fun a => a ∉ cover := by
  apply List.filter_congr
  intro a ha
  have hap : a ≠ p := fun h => hp (h ▸ ha)
  simp [List.mem_append, hap]

/-- Splitting off one uncovered ancestor `p` from a filtered ancestor sum:
the generic form over a per-txid statistic `f`. -/
theorem sum_filter_split (f : Nat → Nat) (anc cover : List Nat) (p : Nat)
    (hnd : anc.Nodup) (hp : p ∈ anc) (hpc : p ∉ cover) :
    ((anc.filter fun a => a ∉ cover ++ [p]).map f).sum + f p
      = ((anc.filter fun a => a ∉ cover).map f).sum := by
  induction anc with
  | nil => simp at hp
  | cons x rest ih =>
    rcases List.nodup_cons.mp hnd with ⟨hx, hrest⟩
    rcases List.mem_cons.mp hp with rfl | hp2
    · have hfilters : (rest.filter fun a => a ∉ cover ++ [p])
          = rest.filter fun a => a ∉ cover :=
        filter_notMem_append_singleton hx
      simp only [List.filter_cons]
      rw [hfilters]
      have h1 : ¬ (p ∉ cover ++ [p]) := by simp
      simp [h1, hpc, Nat.add_comm]
    · have hxp : x ≠ p := fun h => hx (h ▸ hp2)
      have hih := ih hrest hp2
      simp only [List.filter_cons]
      by_cases hxc : x ∈ cover
      · have hd1 : decide (x ∉ cover ++ [p]) = false := by
          simp [List.mem_append, hxc]
        have hd2 : decide (x ∉ cover) = false := by simp [hxc]
        simp only [hd1, hd2, Bool.false_eq_true, if_false]
        exact hih
      · have hd1 : decide (x ∉ cover ++ [p]) = true := by
          simp [List.mem_append, hxc, hxp]
        have hd2 : decide (x ∉ cover) = true := by simp [hxc]
        simp only [hd1, hd2, if_true]
        simp only [List.map_cons, List.sum_cons]
        omega

theorem sumSize_filter_split (pool : List MemEntry) (anc cover : List Nat)
    (p : Nat) (hnd : anc.Nodup) (hp : p ∈ anc) (hpc : p ∉ cover) :
    sumSize pool (anc.filter fun a => a ∉ cover ++ [p]) + sizeOfTx pool p
      = sumSize pool (anc.filter fun a => a ∉ cover) :=
  sum_filter_split (sizeOfTx pool) anc cover p hnd hp hpc

theorem sumSig_filter_split (pool : List MemEntry) (anc cover : List Nat)
    (p : Nat) (hnd : anc.Nodup) (hp : p ∈ anc) (hpc : p ∉ cover) :
    sumSig pool (anc.filter fun a => a ∉ cover ++ [p]) + sigOfTx pool p
      = sumSig pool (anc.filter fun a => a ∉ cover) :=
  sum_filter_split (sigOfTx pool) anc cover p hnd hp hpc

/-- `ids` is closed under the in-mempool ancestor relation. -/
def AncClosed (pool : List MemEntry) (ids : List Nat) : Prop :=
  ∀ e ∈ pool, e.txid ∈ ids → ∀ a ∈ e.ancestors, a ∈ ids

/-- Every initial segment of `ids` is ancestor-closed: ancestors appear no
later than their descendants. -/
def TakeClosed (pool : List MemEntry) (ids : List Nat) : Prop :=
  ∀ n, AncClosed pool (ids.take n)

/-- The per-entry inequality the modified-set invariant maintains: the
entry's cached package aggregates dominate the true size/sigop cost of the
package that would now be added for it — its not-yet-included ancestors
plus itself. -/
def EntryBound (pool : List MemEntry) (cover : List Nat) (d : MemEntry)
    (me : ModEntry) : Prop :=
  sumSize pool (d.ancestors.filter fun a => a ∉ cover) + d.size
      ≤ me.nSizeWithAncestors ∧
  sumSig pool (d.ancestors.filter fun a => a ∉ cover) + d.sigOps
      ≤ me.nSigOpCostWithAncestors

/-- Invariant of `mapModifiedTx` relative to the current block content
`cover`: txids are unique, and each entry names a pool transaction not yet
in the block whose cached aggregates dominate its remaining package. -/
def ModMapInv (pool : List MemEntry) (mp : List ModEntry)
    (cover : List Nat) : Prop :=
  (mp.map ModEntry.txid).Nodup ∧
  ∀ me ∈ mp, ∃ d ∈ pool, d.txid = me.txid ∧ d.txid ∉ cover ∧
    EntryBound pool cover d me

/-- Invariant of the assembler state: the block lists distinct pool
transactions in a topological order, and the weight/sigop accumulators
are exactly the reservations plus the included totals, within budget. -/
def BlockInv (pool : List MemEntry) (opts : AsmOptions) (st : BState) :
    Prop :=
  st.inBlock.Nodup ∧
  (∀ t ∈ st.inBlock, ∃ e ∈ pool, e.txid = t) ∧
  TakeClosed pool st.inBlock ∧
  st.nBlockWeight = 4000 + sumWeight pool st.inBlock ∧
  st.nBlockSigOpsCost = 400 + sumSig pool st.inBlock ∧
  st.nBlockWeight ≤ opts.nBlockMaxWeight ∧
  st.nBlockSigOpsCost ≤ opts.maxSigops

theorem entryBound_of_notMem_anc {pool : List MemEntry} {d : MemEntry}
    {me : ModEntry} {cover : List Nat} {p : Nat}
    (hp : p ∉ d.ancestors) (h : EntryBound pool cover d me) :
    EntryBound pool (cover ++ [p]) d me := by
  unfold EntryBound at h ⊢
  rw [filter_notMem_append_singleton hp]
  exact h

theorem entryBound_sub {pool : List MemEntry} {d it : MemEntry}
    {me : ModEntry} {cover : List Nat} {p : Nat}
    (hit : findEntry pool p = some it)
    (hnd : d.ancestors.Nodup) (hp : p ∈ d.ancestors) (hpc : p ∉ cover)
    (h : EntryBound pool cover d me) :
    EntryBound pool (cover ++ [p]) d (subModEntry me it) := by
  have hsz : sizeOfTx pool p = it.size := by unfold sizeOfTx; rw [hit]; rfl
  have hsg : sigOfTx pool p = it.sigOps := by unfold sigOfTx; rw [hit]; rfl
  have h1 := sumSize_filter_split pool d.ancestors cover p hnd hp hpc
  have h2 := sumSig_filter_split pool d.ancestors cover p hnd hp hpc
  rw [hsz] at h1
  rw [hsg] at h2
  obtain ⟨ha, hb⟩ := h
  unfold EntryBound subModEntry
  dsimp only
  constructor
  · omega
  · omega

theorem entryBound_new {pool : List MemEntry} {d it : MemEntry}
    {cover : List Nat} {p : Nat}
    (hit : findEntry pool p = some it)
    (hnd : d.ancestors.Nodup) (hp : p ∈ d.ancestors) (hpc : p ∉ cover)
    (hsize : d.sizeWithAncestors = d.size + sumSize pool d.ancestors)
    (hsig : d.sigOpCostWithAncestors = d.sigOps + sumSig pool d.ancestors) :
    EntryBound pool (cover ++ [p]) d (subModEntry (modOfEntry d) it) := by
  have hsz : sizeOfTx pool p = it.size := by unfold sizeOfTx; rw [hit]; rfl
  have hsg : sigOfTx pool p = it.sigOps := by unfold sigOfTx; rw [hit]; rfl
  have h1 := sumSize_filter_split pool d.ancestors cover p hnd hp hpc
  have h2 := sumSig_filter_split pool d.ancestors cover p hnd hp hpc
  rw [hsz] at h1
  rw [hsg] at h2
  have h3 := sumSize_filter_le pool d.ancestors (fun a => a ∉ cover)
  have h4 := sumSig_filter_le pool d.ancestors (fun a => a ∉ cover)
  unfold EntryBound subModEntry modOfEntry
  dsimp only
  constructor
  · omega
  · omega

theorem mem_of_findMod {mp : List ModEntry} {t : Nat} {me : ModEntry}
    (h : findMod mp t = some me) : me ∈ mp ∧ me.txid = t := by
  unfold findMod at h
  refine ⟨List.mem_of_find?_eq_some h, ?_⟩
  have := List.find?_some h
  simpa using this

theorem findMod_eq_none_iff {mp : List ModEntry} {t : Nat} :
    findMod mp t = none ↔ ∀ me ∈ mp, me.txid ≠ t := by
  unfold findMod
  rw [List.find?_eq_none]
  simp

theorem mem_replaceMod {mp : List ModEntry} {me x : ModEntry}
    (h : x ∈ replaceMod mp me) :
    x = me ∨ (x ∈ mp ∧ x.txid ≠ me.txid) := by
  unfold replaceMod at h
  rcases List.mem_map.mp h with ⟨y, hy, hxy⟩
  by_cases hyt : y.txid = me.txid
  · left
    rw [if_pos hyt] at hxy
    exact hxy.symm
  · right
    rw [if_neg hyt] at hxy
    exact ⟨hxy ▸ hy, hxy ▸ hyt⟩

theorem map_txid_replaceMod (mp : List ModEntry) (me : ModEntry) :
    (replaceMod mp me).map ModEntry.txid = mp.map ModEntry.txid := by
  unfold replaceMod
  rw [List.map_map]
  apply List.map_congr_left
  intro x _
  by_cases hxt : x.txid = me.txid
  · simp [Function.comp, hxt]
  · simp [Function.comp, hxt]

/-- Mid-loop invariant of the descendant fold inside `updateForOne`: map
txids stay distinct and outside `A` (the txids just added to the block);
each entry's pool transaction lies outside the old cover and differs from
the added `p`; an entry whose update is still pending (`p` an ancestor,
txid in the remaining descendant list `D`) carries the bound for the old
cover, every other entry already carries the bound for `cover ++ [p]`. -/
def MidInv (pool : List MemEntry) (A cover : List Nat) (p : Nat)
    (mp : List ModEntry) (D : List MemEntry) : Prop :=
  (mp.map ModEntry.txid).Nodup ∧
  (∀ me ∈ mp, me.txid ∉ A) ∧
  ∀ me ∈ mp, ∃ d ∈ pool, d.txid = me.txid ∧ d.txid ∉ cover ∧ d.txid ≠ p ∧
    ((p ∈ d.ancestors ∧ d.txid ∈ D.map MemEntry.txid) →
      EntryBound pool cover d me) ∧
    (¬(p ∈ d.ancestors ∧ d.txid ∈ D.map MemEntry.txid) →
      EntryBound pool (cover ++ [p]) d me)

theorem midInv_entry_transfer {pool : List MemEntry} {cover : List Nat}
    {p : Nat} {d0 : MemEntry} {D' : List MemEntry} {me : ModEntry}
    (hne : me.txid ≠ d0.txid)
    (h : ∃ d ∈ pool, d.txid = me.txid ∧ d.txid ∉ cover ∧ d.txid ≠ p ∧
      ((p ∈ d.ancestors ∧ d.txid ∈ (d0 :: D').map MemEntry.txid) →
        EntryBound pool cover d me) ∧
      (¬(p ∈ d.ancestors ∧ d.txid ∈ (d0 :: D').map MemEntry.txid) →
        EntryBound pool (cover ++ [p]) d me)) :
    ∃ d ∈ pool, d.txid = me.txid ∧ d.txid ∉ cover ∧ d.txid ≠ p ∧
      ((p ∈ d.ancestors ∧ d.txid ∈ D'.map MemEntry.txid) →
        EntryBound pool cover d me) ∧
      (¬(p ∈ d.ancestors ∧ d.txid ∈ D'.map MemEntry.txid) →
        EntryBound pool (cover ++ [p]) d me) :=
  (fun hA => by
    obtain ⟨d, hdp, hdt, hdc, hdnp, hc1, hc2⟩ := hA
    have hdne : d.txid ≠ d0.txid := by rw [hdt]; exact hne
    refine ⟨d, hdp, hdt, hdc, hdnp, ?_, ?_⟩
    · rintro ⟨hpa, hdm⟩
      refine hc1 ⟨hpa, ?_⟩
      simp only [List.map_cons, List.mem_cons]
      right
      exact hdm
    · intro hn
      apply hc2
      rintro ⟨hpa, hdm⟩
      have hsplit : d.txid = d0.txid ∨ d.txid ∈ D'.map MemEntry.txid := by
        simpa using hdm
      rcases hsplit with heq | h'
      · exact hdne heq
      · exact hn ⟨hpa, h'⟩) h

theorem midInv_fold (pool : List MemEntry) (hwf : WfPool pool)
    (A cover : List Nat) (p : Nat) (it : MemEntry)
    (hit : findEntry pool p = some it) (hpA : p ∈ A) (hpc : p ∉ cover)
    (hAc : ∀ d ∈ pool, p ∈ d.ancestors → d.txid ∉ A → d.txid ∉ cover)
    (D : List MemEntry) :
    ∀ (mp : List ModEntry),
      (∀ d ∈ D, d ∈ pool ∧ (p ∈ d.ancestors ∨ d.txid = p)) →
      (D.map MemEntry.txid).Nodup →
      MidInv pool A cover p mp D →
      MidInv pool A cover p (D.foldl (updateOneDesc A it) mp) [] := by
  induction D with
  | nil =>
    intro mp _ _ hinv
    exact hinv
  | cons d0 D' ih =>
    intro mp hD hnd hinv
    obtain ⟨hd0pool, hd0rel⟩ := hD d0 (List.mem_cons_self d0 D')
    obtain ⟨hmnd, hmA, hment⟩ := hinv
    have hndc : d0.txid ∉ D'.map MemEntry.txid ∧
        (D'.map MemEntry.txid).Nodup := by
      simpa using hnd
    simp only [List.foldl_cons]
    apply ih
    · intro d hd
      exact hD d (List.mem_cons_of_mem d0 hd)
    · exact hndc.2
    · -- one updateOneDesc step preserves the mid invariant
      unfold updateOneDesc
      by_cases hA0 : d0.txid ∈ A
      · rw [if_pos hA0]
        refine ⟨hmnd, hmA, fun me hme => ?_⟩
        have hne : me.txid ≠ d0.txid := fun h => hmA me hme (h ▸ hA0)
        exact midInv_entry_transfer hne (hment me hme)
      · rw [if_neg hA0]
        have hd0p : d0.txid ≠ p := fun h => hA0 (h ▸ hpA)
        have hpa : p ∈ d0.ancestors := by
          rcases hd0rel with hpa | htid
          · exact hpa
          · exact absurd htid hd0p
        have hd0c : d0.txid ∉ cover := hAc d0 hd0pool hpa hA0
        obtain ⟨hancnd, _, _, _, hsize, hsig⟩ := hwf.2 d0 hd0pool
        cases hfm : findMod mp d0.txid with
        | none =>
          have hnotin : d0.txid ∉ mp.map ModEntry.txid := by
            intro hmem
            rcases List.mem_map.mp hmem with ⟨me, hme, hmet⟩
            exact findMod_eq_none_iff.mp hfm me hme hmet
          have hmapapp :
              (mp ++ [subModEntry (modOfEntry d0) it]).map ModEntry.txid
                = mp.map ModEntry.txid ++ [d0.txid] := by
            simp [subModEntry, modOfEntry]
          refine ⟨?_, ?_, ?_⟩
          · rw [hmapapp]
            refine List.Nodup.append hmnd (List.nodup_singleton _) ?_
            intro a ha hb
            have : a = d0.txid := by simpa using hb
            exact hnotin (this ▸ ha)
          · intro me hme
            rcases List.mem_append.mp hme with hold | hnew
            · exact hmA me hold
            · have : me = subModEntry (modOfEntry d0) it := by simpa using hnew
              rw [this]
              exact hA0
          · intro me hme
            rcases List.mem_append.mp hme with hold | hnew
            · have hne : me.txid ≠ d0.txid := fun h =>
                hnotin (h ▸ List.mem_map_of_mem ModEntry.txid hold)
              exact midInv_entry_transfer hne (hment me hold)
            · have hmeq : me = subModEntry (modOfEntry d0) it := by
                simpa using hnew
              refine ⟨d0, hd0pool, by rw [hmeq]; rfl, hd0c, hd0p, ?_, ?_⟩
              · rintro ⟨_, hdm⟩
                exact absurd hdm hndc.1
              · intro _
                rw [hmeq]
                exact entryBound_new hit hancnd hpa hpc hsize hsig
        | some me0 =>
          obtain ⟨hme0mem, hme0t⟩ := mem_of_findMod hfm
          refine ⟨?_, ?_, ?_⟩
          · rw [map_txid_replaceMod]
            exact hmnd
          · intro me hme
            rcases mem_replaceMod hme with rfl | ⟨hold, _⟩
            · show me0.txid ∉ A
              rw [hme0t]
              exact hA0
            · exact hmA me hold
          · intro me hme
            rcases mem_replaceMod hme with rfl | ⟨hold, hne'⟩
            · -- the replaced entry: its pending bound is discharged now
              obtain ⟨d, hdp, hdt, _, _, hc1, _⟩ := hment me0 hme0mem
              have hdd0 : d = d0 :=
                txid_inj hwf.1 hdp hd0pool (by rw [hdt, hme0t])
              subst hdd0
              have hbound : EntryBound pool cover d me0 := by
                apply hc1
                exact ⟨hpa, List.mem_map_of_mem MemEntry.txid
                  (List.mem_cons_self _ _)⟩
              refine ⟨d, hdp, by rw [hdt]; rfl, by rw [hdt, hme0t]; exact hd0c,
                by rw [hdt, hme0t]; exact hd0p, ?_, ?_⟩
              · rintro ⟨_, hdm⟩
                rw [hdt, hme0t] at hdm
                exact absurd hdm hndc.1
              · intro _
                exact entryBound_sub hit hancnd hpa hpc hbound
            · have hne : me.txid ≠ d0.txid := by
                intro h
                apply hne'
                rw [h]
                show d0.txid = (subModEntry me0 it).txid
                rw [show (subModEntry me0 it).txid = me0.txid from rfl, hme0t]
              exact midInv_entry_transfer hne (hment me hold)

theorem modMapInv_updateForOne (pool : List MemEntry) (hwf : WfPool pool)
    (A cover : List Nat) (p : Nat) (mp : List ModEntry)
    (hpA : p ∈ A) (hpc : p ∉ cover)
    (hppool : ∃ e ∈ pool, e.txid = p)
    (hAc : ∀ d ∈ pool, p ∈ d.ancestors → d.txid ∉ A → d.txid ∉ cover)
    (hmpA : ∀ me ∈ mp, me.txid ∉ A)
    (hinv : ModMapInv pool mp cover) :
    ModMapInv pool (updateForOne pool A mp p) (cover ++ [p]) ∧
      ∀ me ∈ updateForOne pool A mp p, me.txid ∉ A := by
  obtain ⟨e, hep, het⟩ := hppool
  have hit : findEntry pool p = some e := by
    rw [← het]
    exact findEntry_self hwf.1 hep
  unfold updateForOne
  rw [hit]
  have hmid0 : MidInv pool A cover p mp (descendantsOf pool p) := by
    refine ⟨hinv.1, hmpA, fun me hme => ?_⟩
    obtain ⟨d, hdp, hdt, hdc, hb⟩ := hinv.2 me hme
    have hdnp : d.txid ≠ p := by
      rw [hdt]
      exact fun h => hmpA me hme (h ▸ hpA)
    refine ⟨d, hdp, hdt, hdc, hdnp, fun _ => hb, fun hn => ?_⟩
    by_cases hpa : p ∈ d.ancestors
    · exfalso
      apply hn
      refine ⟨hpa, List.mem_map_of_mem MemEntry.txid ?_⟩
      unfold descendantsOf
      rw [List.mem_filter]
      exact ⟨hdp, by simp [hpa]⟩
    · exact entryBound_of_notMem_anc hpa hb
  have hDcond : ∀ d ∈ descendantsOf pool p,
      d ∈ pool ∧ (p ∈ d.ancestors ∨ d.txid = p) := by
    intro d hd
    unfold descendantsOf at hd
    rw [List.mem_filter] at hd
    exact ⟨hd.1, by simpa using hd.2⟩
  have hDnd : ((descendantsOf pool p).map MemEntry.txid).Nodup := by
    have hsub : List.Sublist ((descendantsOf pool p).map MemEntry.txid)
        (pool.map MemEntry.txid) :=
      List.Sublist.map MemEntry.txid (List.filter_sublist pool)
    exact List.Nodup.sublist hsub hwf.1
  have hend := midInv_fold pool hwf A cover p e hit hpA hpc hAc
    (descendantsOf pool p) mp hDcond hDnd hmid0
  obtain ⟨hnd, hA, hent⟩ := hend
  refine ⟨⟨hnd, fun me hme => ?_⟩, hA⟩
  obtain ⟨d, hdp, hdt, hdc, hdnp, _, hc2⟩ := hent me hme
  refine ⟨d, hdp, hdt, ?_, hc2 (by simp)⟩
  simp [List.mem_append, hdc, hdnp]

theorem updateForAdded_aux (pool : List MemEntry) (hwf : WfPool pool)
    (A cover0 : List Nat)
    (hA_pool : ∀ p ∈ A, ∃ e ∈ pool, e.txid = p)
    (hA_c0 : ∀ p ∈ A, p ∉ cover0)
    (hdesc : ∀ p ∈ A, ∀ d ∈ pool, p ∈ d.ancestors → d.txid ∉ A →
      d.txid ∉ cover0) (l : List Nat) :
    ∀ (proc : List Nat) (mp : List ModEntry),
      (∀ x ∈ l, x ∈ A) → (∀ x ∈ proc, x ∈ A) → (proc ++ l).Nodup →
      (∀ me ∈ mp, me.txid ∉ A) →
      ModMapInv pool mp (cover0 ++ proc) →
      ModMapInv pool (l.foldl (updateForOne pool A) mp)
          (cover0 ++ proc ++ l) ∧
        ∀ me ∈ l.foldl (updateForOne pool A) mp, me.txid ∉ A := by
  induction l with
  | nil =>
    intro proc mp _ _ _ hmpA hinv
    simp only [List.foldl_nil, List.append_nil]
    exact ⟨hinv, hmpA⟩
  | cons p l' ih =>
    intro proc mp hl hproc hnd hmpA hinv
    have hpA : p ∈ A := hl p (List.mem_cons_self p l')
    have hndparts := List.nodup_append.mp hnd
    have hpc : p ∉ cover0 ++ proc := by
      rw [List.mem_append]
      rintro (h | h)
      · exact hA_c0 p hpA h
      · exact hndparts.2.2 h (List.mem_cons_self p l')
    have hAc : ∀ d ∈ pool, p ∈ d.ancestors → d.txid ∉ A →
        d.txid ∉ cover0 ++ proc := by
      intro d hd hpa hdA
      rw [List.mem_append]
      rintro (h | h)
      · exact hdesc p hpA d hd hpa hdA h
      · exact hdA (hproc _ h)
    have hstep := modMapInv_updateForOne pool hwf A (cover0 ++ proc) p mp
      hpA hpc (hA_pool p hpA) hAc hmpA hinv
    have hinv' : ModMapInv pool (updateForOne pool A mp p)
        (cover0 ++ (proc ++ [p])) := by
      rw [← List.append_assoc]
      exact hstep.1
    have hnd' : ((proc ++ [p]) ++ l').Nodup := by
      rw [show (proc ++ [p]) ++ l' = proc ++ (p :: l') by simp]
      exact hnd
    have hres := ih (proc ++ [p]) (updateForOne pool A mp p)
      (fun x hx => hl x (List.mem_cons_of_mem p hx))
      (fun x hx => by
        rcases List.mem_append.mp hx with h | h
        · exact hproc x h
        · exact (show x = p by simpa using h) ▸ hpA)
      hnd' hstep.2 hinv'
    rw [show cover0 ++ (proc ++ [p]) ++ l' = cover0 ++ proc ++ (p :: l')
      by simp] at hres
    simpa only [List.foldl_cons] using hres

theorem modMapInv_updateForAdded (pool : List MemEntry) (hwf : WfPool pool)
    (A cover0 : List Nat) (mp : List ModEntry)
    (hA_pool : ∀ p ∈ A, ∃ e ∈ pool, e.txid = p)
    (hA_c0 : ∀ p ∈ A, p ∉ cover0)
    (hdesc : ∀ p ∈ A, ∀ d ∈ pool, p ∈ d.ancestors → d.txid ∉ A →
      d.txid ∉ cover0)
    (hAnd : A.Nodup)
    (hmpA : ∀ me ∈ mp, me.txid ∉ A)
    (hinv : ModMapInv pool mp cover0) :
    ModMapInv pool (updateForAdded pool A mp) (cover0 ++ A) ∧
      ∀ me ∈ updateForAdded pool A mp, me.txid ∉ A := by
  have h := updateForAdded_aux pool hwf A cover0 hA_pool hA_c0 hdesc A []
    mp (fun x hx => hx) (fun x hx => by simp at hx)
    (by simpa using hAnd) hmpA (by simpa using hinv)
  simpa [updateForAdded] using h

theorem perm_insertByCount (e : MemEntry) (l : List MemEntry) :
    (insertByCount e l).Perm (e :: l) := by
  induction l with
  | nil => exact List.Perm.refl _
  | cons x xs ih =>
    unfold insertByCount
    by_cases h : e.countWithAncestors ≤ x.countWithAncestors
    · rw [if_pos h]
    · rw [if_neg h]
      exact List.Perm.trans (List.Perm.cons x ih) (List.Perm.swap e x xs)

theorem perm_sortByCount (l : List MemEntry) : (sortByCount l).Perm l := by
  induction l with
  | nil => exact List.Perm.refl _
  | cons x xs ih =>
    unfold sortByCount
    exact List.Perm.trans (perm_insertByCount x (sortByCount xs))
      (List.Perm.cons x ih)

theorem pairwise_insertByCount (e : MemEntry) (l : List MemEntry)
    (h : l.Pairwise fun a b =>
      a.countWithAncestors ≤ b.countWithAncestors) :
    (insertByCount e l).Pairwise fun a b =>
      a.countWithAncestors ≤ b.countWithAncestors := by
  induction l with
  | nil => simp [insertByCount]
  | cons x xs ih =>
    rcases List.pairwise_cons.mp h with ⟨h1, h2⟩
    unfold insertByCount
    by_cases he : e.countWithAncestors ≤ x.countWithAncestors
    · rw [if_pos he]
      refine List.pairwise_cons.mpr ⟨?_, h⟩
      intro y hy
      rcases List.mem_cons.mp hy with rfl | hy2
      · exact he
      · exact Nat.le_trans he (h1 y hy2)
    · rw [if_neg he]
      refine List.pairwise_cons.mpr ⟨?_, ih h2⟩
      intro y hy
      have hy' := (perm_insertByCount e xs).mem_iff.mp hy
      rcases List.mem_cons.mp hy' with rfl | hy2
      · omega
      · exact h1 y hy2

theorem pairwise_sortByCount (l : List MemEntry) :
    (sortByCount l).Pairwise fun a b =>
      a.countWithAncestors ≤ b.countWithAncestors := by
  induction l with
  | nil => simp [sortByCount]
  | cons x xs ih => exact pairwise_insertByCount x (sortByCount xs) ih

/-- In a count-sorted duplicate-free entry list, any strictly smaller
count appears in every initial segment that contains the larger one. -/
theorem mem_take_of_count_lt (ents : List MemEntry)
    (hsort : ents.Pairwise fun a b =>
      a.countWithAncestors ≤ b.countWithAncestors)
    (hnd : (ents.map MemEntry.txid).Nodup) :
    ∀ (m : Nat) (e q : MemEntry), e ∈ ents → q ∈ ents →
      q.countWithAncestors < e.countWithAncestors →
      e.txid ∈ (ents.map MemEntry.txid).take m →
      q.txid ∈ (ents.map MemEntry.txid).take m := by
  induction ents with
  | nil =>
    intro m e q he
    simp at he
  | cons x rest ih =>
    intro m e q he hq hlt hetake
    cases m with
    | zero => simp at hetake
    | succ m' =>
      simp only [List.map_cons, List.take_succ_cons] at hetake ⊢
      rcases List.mem_cons.mp hq with rfl | hq2
      · exact List.mem_cons_self _ _
      · rcases List.mem_cons.mp he with rfl | he2
        · have := (List.pairwise_cons.mp hsort).1 q hq2
          omega
        · rw [List.map_cons] at hnd
          have hnd' := List.nodup_cons.mp hnd
          have hne : e.txid ≠ x.txid := fun h =>
            hnd'.1 (h ▸ List.mem_map_of_mem MemEntry.txid he2)
          rcases List.mem_cons.mp hetake with heq | hetk
          · exact absurd heq hne
          · exact List.mem_cons_of_mem _
              (ih (List.pairwise_cons.mp hsort).2 hnd'.2 m' e q he2 hq2 hlt
                hetk)

/-- Appending a count-sorted, internally closed package keeps every
initial segment of the block ancestor-closed. -/
theorem takeClosed_append (pool : List MemEntry) (hwf : WfPool pool)
    (old : List Nat) (ents : List MemEntry)
    (hold : TakeClosed pool old)
    (hsort : ents.Pairwise fun a b =>
      a.countWithAncestors ≤ b.countWithAncestors)
    (hents_pool : ∀ q ∈ ents, q ∈ pool)
    (hentsnd : (ents.map MemEntry.txid).Nodup)
    (hclose : ∀ q ∈ ents, ∀ a ∈ q.ancestors,
      a ∈ old ∨ a ∈ ents.map MemEntry.txid) :
    TakeClosed pool (old ++ ents.map MemEntry.txid) := by
  intro n e hep hetn a ha
  rw [List.take_append_eq_append_take] at hetn ⊢
  rcases List.mem_append.mp hetn with hold_part | hnew_part
  · exact List.mem_append.mpr (Or.inl (hold n e hep hold_part a ha))
  · -- the included txid comes from the appended package
    have hm0 : 0 < n - old.length := by
      rcases Nat.eq_zero_or_pos (n - old.length) with hz | hp
      · rw [hz] at hnew_part
        simp at hnew_part
      · exact hp
    have hlen : old.length < n := by omega
    have htall : old.take n = old := List.take_of_length_le (by omega)
    have hetid : e.txid ∈ ents.map MemEntry.txid :=
      List.take_subset _ _ hnew_part
    rcases List.mem_map.mp hetid with ⟨q, hqents, hqt⟩
    have hqe : q = e := txid_inj hwf.1 (hents_pool q hqents) hep hqt
    subst hqe
    rcases hclose q hqents a ha with hao | han
    · refine List.mem_append.mpr (Or.inl ?_)
      rw [htall]
      exact hao
    · rcases List.mem_map.mp han with ⟨q', hq'ents, hq't⟩
      obtain ⟨_, _, hancwf, _, _, _⟩ := hwf.2 q (hents_pool q hqents)
      obtain ⟨ea, heap, heat, _, heacnt⟩ := hancwf a ha
      have hq'ea : q' = ea :=
        txid_inj hwf.1 (hents_pool q' hq'ents) heap (by rw [hq't, heat])
      have hcnt : q'.countWithAncestors < q.countWithAncestors := by
        rw [hq'ea]
        exact heacnt
      refine List.mem_append.mpr (Or.inr ?_)
      rw [← hq't]
      exact mem_take_of_count_lt ents hsort hentsnd (n - old.length) q q'
        hqents hq'ents hcnt hnew_part

theorem mem_take_indexOf_succ {l : List Nat} {x : Nat} (h : x ∈ l) :
    x ∈ l.take (l.indexOf x + 1) := by
  induction l with
  | nil => simp at h
  | cons y ys ih =>
    by_cases hxy : y = x
    · subst hxy
      simp [List.indexOf_cons_self]
    · have h2 : x ∈ ys := by
        rcases List.mem_cons.mp h with h' | h'
        · exact absurd h'.symm hxy
        · exact h'
      rw [List.indexOf_cons_ne ys hxy, List.take_succ_cons]
      exact List.mem_cons_of_mem y (ih h2)

theorem indexOf_lt_of_mem_take {l : List Nat} {x : Nat} :
    ∀ {n : Nat}, x ∈ l.take n → l.indexOf x < n := by
  induction l with
  | nil => intro n h; simp at h
  | cons y ys ih =>
    intro n h
    cases n with
    | zero => simp at h
    | succ m =>
      rw [List.take_succ_cons] at h
      by_cases hxy : y = x
      · subst hxy
        simp [List.indexOf_cons_self]
      · rcases List.mem_cons.mp h with h' | h'
        · exact absurd h'.symm hxy
        · rw [List.indexOf_cons_ne ys hxy]
          exact Nat.succ_lt_succ (ih h')

/-- From closed initial segments and a duplicate-free block to the
positional statement: ancestors sit strictly earlier. -/
theorem takeClosed_indexOf (pool : List MemEntry) (ids : List Nat)
    (htc : TakeClosed pool ids) (e : MemEntry)
    (hep : e ∈ pool) (hanc : e.txid ∉ e.ancestors)
    (hetid : e.txid ∈ ids) {a : Nat} (ha : a ∈ e.ancestors) :
    a ∈ ids ∧ ids.indexOf a < ids.indexOf e.txid := by
  have h1 : e.txid ∈ ids.take (ids.indexOf e.txid + 1) :=
    mem_take_indexOf_succ hetid
  have h2 : a ∈ ids.take (ids.indexOf e.txid + 1) :=
    htc (ids.indexOf e.txid + 1) e hep h1 a ha
  have h3 : a ∈ ids := List.take_subset _ _ h2
  have h4 : ids.indexOf a < ids.indexOf e.txid + 1 :=
    indexOf_lt_of_mem_take h2
  have hne : a ≠ e.txid := fun h => hanc (h ▸ ha)
  have h5 : ids.indexOf a ≠ ids.indexOf e.txid := fun h =>
    hne ((List.indexOf_inj h3 hetid).mp h)
  exact ⟨h3, by omega⟩

theorem modMapInv_congr {pool : List MemEntry} {mp : List ModEntry}
    {c1 c2 : List Nat} (h : ∀ a, a ∈ c1 ↔ a ∈ c2)
    (hinv : ModMapInv pool mp c1) : ModMapInv pool mp c2 := by
  refine ⟨hinv.1, fun me hme => ?_⟩
  obtain ⟨d, hdp, hdt, hdc, hb1, hb2⟩ := hinv.2 me hme
  have hf : (d.ancestors.filter fun a => a ∉ c2)
      = d.ancestors.filter fun a => a ∉ c1 := by
    apply List.filter_congr
    intro a _
    simp [h a]
  refine ⟨d, hdp, hdt, fun hc => hdc ((h d.txid).mpr hc), ?_, ?_⟩
  · rw [show sumSize pool (d.ancestors.filter fun a => a ∉ c2)
        = sumSize pool (d.ancestors.filter fun a => a ∉ c1) by rw [hf]]
    exact hb1
  · rw [show sumSig pool (d.ancestors.filter fun a => a ∉ c2)
        = sumSig pool (d.ancestors.filter fun a => a ∉ c1) by rw [hf]]
    exact hb2

theorem modMapInv_of_sublist {pool : List MemEntry} {mp1 mp : List ModEntry}
    {c : List Nat} (hs : List.Sublist mp1 mp) (h : ModMapInv pool mp c) :
    ModMapInv pool mp1 c :=
  ⟨List.Nodup.sublist (List.Sublist.map ModEntry.txid hs) h.1,
    fun me hme => h.2 me (hs.subset hme)⟩

theorem eraseMod_sublist (mp : List ModEntry) (t : Nat) :
    List.Sublist (eraseMod mp t) mp :=
  List.filter_sublist mp

theorem foldl_eraseMod_sublist (ents : List MemEntry) :
    ∀ mp : List ModEntry,
      List.Sublist (ents.foldl (fun m se => eraseMod m se.txid) mp) mp := by
  induction ents with
  | nil => intro mp; exact List.Sublist.refl mp
  | cons x xs ih =>
    intro mp
    simp only [List.foldl_cons]
    exact List.Sublist.trans (ih (eraseMod mp x.txid))
      (eraseMod_sublist mp x.txid)

theorem foldl_eraseMod_notMem (ents : List MemEntry) :
    ∀ (mp : List ModEntry)
      (me : ModEntry), me ∈ ents.foldl (fun m se => eraseMod m se.txid) mp →
      me.txid ∉ ents.map MemEntry.txid := by
  induction ents with
  | nil =>
    intro mp me _
    simp
  | cons x xs ih =>
    intro mp me hme
    simp only [List.foldl_cons] at hme
    have hx := ih (eraseMod mp x.txid) me hme
    have hmem : me ∈ eraseMod mp x.txid :=
      (foldl_eraseMod_sublist xs (eraseMod mp x.txid)).subset hme
    have hne : me.txid ≠ x.txid := by
      unfold eraseMod at hmem
      have := List.of_mem_filter hmem
      simpa using this
    simp only [List.map_cons, List.mem_cons]
    rintro (h | h)
    · exact hne h
    · exact hx h

theorem foldl_addToBlock (ents : List MemEntry) :
    ∀ st : BState,
      (ents.foldl addToBlock st).inBlock
          = st.inBlock ++ ents.map MemEntry.txid ∧
      (ents.foldl addToBlock st).nBlockWeight
          = st.nBlockWeight + (ents.map MemEntry.weight).sum ∧
      (ents.foldl addToBlock st).nBlockSigOpsCost
          = st.nBlockSigOpsCost + (ents.map MemEntry.sigOps).sum := by
  induction ents with
  | nil => intro st; simp
  | cons x xs ih =>
    intro st
    simp only [List.foldl_cons]
    obtain ⟨h1, h2, h3⟩ := ih (addToBlock st x)
    refine ⟨?_, ?_, ?_⟩
    · rw [h1]
      simp [addToBlock]
    · rw [h2]
      simp [addToBlock]
      omega
    · rw [h3]
      simp [addToBlock]
      omega

theorem sumWeight_map_txid (pool : List MemEntry)
    (hnd : (pool.map MemEntry.txid).Nodup) (ents : List MemEntry)
    (h : ∀ q ∈ ents, q ∈ pool) :
    sumWeight pool (ents.map MemEntry.txid)
      = (ents.map MemEntry.weight).sum := by
  unfold sumWeight
  rw [List.map_map]
  apply congrArg List.sum
  apply List.map_congr_left
  intro q hq
  exact weightOfTx_eq hnd (h q hq)

theorem sumSig_map_txid (pool : List MemEntry)
    (hnd : (pool.map MemEntry.txid).Nodup) (ents : List MemEntry)
    (h : ∀ q ∈ ents, q ∈ pool) :
    sumSig pool (ents.map MemEntry.txid)
      = (ents.map MemEntry.sigOps).sum := by
  unfold sumSig
  rw [List.map_map]
  apply congrArg List.sum
  apply List.map_congr_left
  intro q hq
  exact sigOfTx_eq hnd (h q hq)

theorem sumWeight_perm (pool : List MemEntry) {l1 l2 : List Nat}
    (h : l1.Perm l2) : sumWeight pool l1 = sumWeight pool l2 :=
  (h.map (weightOfTx pool)).sum_eq

theorem sumSig_perm (pool : List MemEntry) {l1 l2 : List Nat}
    (h : l1.Perm l2) : sumSig pool l1 = sumSig pool l2 :=
  (h.map (sigOfTx pool)).sum_eq

theorem sumSize_perm (pool : List MemEntry) {l1 l2 : List Nat}
    (h : l1.Perm l2) : sumSize pool l1 = sumSize pool l2 :=
  (h.map (sizeOfTx pool)).sum_eq

theorem filterMap_findEntry_map_txid (pool : List MemEntry)
    (hnd : (pool.map MemEntry.txid).Nodup) (ids : List Nat)
    (h : ∀ t ∈ ids, ∃ e ∈ pool, e.txid = t) :
    (ids.filterMap (findEntry pool)).map MemEntry.txid = ids := by
  induction ids with
  | nil => simp
  | cons t ts ih =>
    obtain ⟨e, hep, het⟩ := h t (List.mem_cons_self t ts)
    have hfind : findEntry pool t = some e := by
      rw [← het]
      exact findEntry_self hnd hep
    simp only [List.filterMap_cons, hfind, List.map_cons]
    rw [het, ih fun x hx => h x (List.mem_cons_of_mem t hx)]

theorem mem_pool_of_mem_filterMap {pool : List MemEntry} {ids : List Nat}
    {q : MemEntry} (h : q ∈ ids.filterMap (findEntry pool)) : q ∈ pool := by
  rcases List.mem_filterMap.mp h with ⟨t, _, hfind⟩
  exact (mem_of_findEntry hfind).1

theorem ancClosed_of_takeClosed {pool : List MemEntry} {ids : List Nat}
    (h : TakeClosed pool ids) : AncClosed pool ids := by
  have := h ids.length
  rwa [List.take_length] at this

theorem bestMod_mem {mp : List ModEntry} {mb : ModEntry}
    (h : bestMod mp = some mb) : mb ∈ mp := by
  induction mp with
  | nil => simp [bestMod] at h
  | cons m rest ih =>
    unfold bestMod at h
    cases hb : bestMod rest with
    | none =>
      rw [hb] at h
      exact List.mem_cons.mpr (Or.inl (Option.some_inj.mp h).symm)
    | some b =>
      rw [hb] at h
      dsimp only at h
      by_cases hcmp : ancScoreBefore b m = true
      · rw [if_pos hcmp] at h
        exact List.mem_cons_of_mem m (ih (hb.trans (congrArg some
          (Option.some_inj.mp h))))
      · rw [if_neg hcmp] at h
        exact List.mem_cons.mpr (Or.inl (Option.some_inj.mp h).symm)

/-- Preservation across the successful package-add branch of the loop
body: adding the sorted package keeps the block and modified-set
invariants. The package aggregates used by `TestPackage` are abstracted
into `pkgSize`/`pkgSig` with the domination hypotheses that hold on both
the plain and the modified candidate path. -/
theorem addBranch_preserves (pool : List MemEntry) (hwf : WfPool pool)
    (opts : AsmOptions) (st : BState) (iter : MemEntry) (mp : List ModEntry)
    (ancIds pkgIds : List Nat) (pkgEntries sorted : List MemEntry)
    (st1 : BState) (mp1 mp2 : List ModEntry)
    (hanc : ancIds = iter.ancestors.filter fun a => a ∉ st.inBlock)
    (hpkg : pkgIds = ancIds ++ [iter.txid])
    (hents : pkgEntries = pkgIds.filterMap (findEntry pool))
    (hsorted : sorted = sortByCount pkgEntries)
    (hst1 : st1 = sorted.foldl addToBlock st)
    (hmp1 : mp1 = sorted.foldl (fun m se => eraseMod m se.txid) mp)
    (hmp2 : mp2 = updateForAdded pool pkgIds mp1)
    (hiter : iter ∈ pool) (hnotin : iter.txid ∉ st.inBlock)
    (hb : BlockInv pool opts st) (hmpinv : ModMapInv pool mp st.inBlock)
    (pkgSize pkgSig : Nat)
    (hszb : sumSize pool ancIds + iter.size ≤ pkgSize)
    (hsgb : sumSig pool ancIds + iter.sigOps ≤ pkgSig)
    (htest : TestPackage st opts pkgSize pkgSig = true) :
    BlockInv pool opts st1 ∧ ModMapInv pool mp2 st1.inBlock := by
  obtain ⟨hbnd, hbmem, hbtc, hbw, hbs, hbwle, hbsle⟩ := hb
  obtain ⟨hancnd, hselfanc, hancwf, hw4, hsizeEq, hsigEq⟩ := hwf.2 iter hiter
  have hids_pool : ∀ t ∈ pkgIds, ∃ e ∈ pool, e.txid = t := by
    intro t ht
    rw [hpkg] at ht
    rcases List.mem_append.mp ht with hta | htb
    · rw [hanc] at hta
      obtain ⟨ea, heap, heat, _, _⟩ := hancwf t (List.mem_of_mem_filter hta)
      exact ⟨ea, heap, heat⟩
    · have ht' : t = iter.txid := by simpa using htb
      exact ⟨iter, hiter, ht'.symm⟩
  have hids_nb : ∀ t ∈ pkgIds, t ∉ st.inBlock := by
    intro t ht
    rw [hpkg] at ht
    rcases List.mem_append.mp ht with hta | htb
    · rw [hanc] at hta
      have := List.of_mem_filter hta
      simpa using this
    · have ht' : t = iter.txid := by simpa using htb
      rw [ht']
      exact hnotin
  have hids_nodup : pkgIds.Nodup := by
    rw [hpkg, hanc]
    refine List.Nodup.append (List.Nodup.filter _ hancnd)
      (List.nodup_singleton _) ?_
    intro a ha hb'
    have h1 : a ∈ iter.ancestors := List.mem_of_mem_filter ha
    have h2 : a = iter.txid := by simpa using hb'
    exact hselfanc (h2 ▸ h1)
  have hmap : pkgEntries.map MemEntry.txid = pkgIds := by
    rw [hents]
    exact filterMap_findEntry_map_txid pool hwf.1 pkgIds hids_pool
  have hents_pool : ∀ q ∈ pkgEntries, q ∈ pool := by
    intro q hq
    rw [hents] at hq
    exact mem_pool_of_mem_filterMap hq
  have hsort_perm : sorted.Perm pkgEntries := by
    rw [hsorted]
    exact perm_sortByCount pkgEntries
  have hsorted_pool : ∀ q ∈ sorted, q ∈ pool := fun q hq =>
    hents_pool q (hsort_perm.subset hq)
  have hmapperm : (sorted.map MemEntry.txid).Perm pkgIds := by
    rw [← hmap]
    exact hsort_perm.map MemEntry.txid
  have hsortednd : (sorted.map MemEntry.txid).Nodup :=
    hmapperm.nodup_iff.mpr hids_nodup
  have hq_char : ∀ q ∈ pkgEntries, q = iter ∨ q.txid ∈ ancIds := by
    intro q hq
    have hqt : q.txid ∈ pkgIds := by
      rw [← hmap]
      exact List.mem_map_of_mem MemEntry.txid hq
    rw [hpkg] at hqt
    rcases List.mem_append.mp hqt with hta | htb
    · exact Or.inr hta
    · have ht' : q.txid = iter.txid := by simpa using htb
      exact Or.inl (txid_inj hwf.1 (hents_pool q hq) hiter ht')
  have hclose : ∀ q ∈ sorted, ∀ a ∈ q.ancestors,
      a ∈ st.inBlock ∨ a ∈ sorted.map MemEntry.txid := by
    intro q hq a ha
    have hq' := hsort_perm.subset hq
    have haiter : a ∈ iter.ancestors := by
      rcases hq_char q hq' with rfl | hqa
      · exact ha
      · rw [hanc] at hqa
        obtain ⟨ea, heap, heat, hsub, _⟩ :=
          hancwf q.txid (List.mem_of_mem_filter hqa)
        have heq : ea = q := txid_inj hwf.1 heap (hents_pool q hq') heat
        rw [heq] at hsub
        exact hsub ha
    by_cases hain : a ∈ st.inBlock
    · exact Or.inl hain
    · refine Or.inr (hmapperm.mem_iff.mpr ?_)
      rw [hpkg]
      refine List.mem_append.mpr (Or.inl ?_)
      rw [hanc]
      exact List.mem_filter.mpr ⟨haiter, by simpa using hain⟩
  have hsum_size : sumSize pool pkgIds = sumSize pool ancIds + iter.size := by
    rw [hpkg, sumSize_append]
    have : sumSize pool [iter.txid] = iter.size := by
      unfold sumSize
      simp [sizeOfTx_eq hwf.1 hiter]
    rw [this]
  have hsum_sig : sumSig pool pkgIds = sumSig pool ancIds + iter.sigOps := by
    rw [hpkg, sumSig_append]
    have : sumSig pool [iter.txid] = iter.sigOps := by
      unfold sumSig
      simp [sigOfTx_eq hwf.1 hiter]
    rw [this]
  have hw_le : sumWeight pool pkgIds ≤ 4 * sumSize pool pkgIds := by
    apply sumWeight_le_four_sumSize
    intro t ht
    obtain ⟨e, hep, het⟩ := hids_pool t ht
    rw [← het, weightOfTx_eq hwf.1 hep, sizeOfTx_eq hwf.1 hep]
    exact (hwf.2 e hep).2.2.2.1
  have h12 : ¬(st.nBlockWeight + 4 * pkgSize ≥ opts.nBlockMaxWeight) ∧
      ¬(st.nBlockSigOpsCost + pkgSig ≥ opts.maxSigops) := by
    unfold TestPackage at htest
    split_ifs at htest with h1 h2
    exact ⟨h1, h2⟩
  obtain ⟨hib, hwt, hsg⟩ := foldl_addToBlock sorted st
  rw [← hst1] at hib hwt hsg
  have hwsum : (sorted.map MemEntry.weight).sum = sumWeight pool pkgIds := by
    rw [← sumWeight_map_txid pool hwf.1 sorted hsorted_pool]
    exact sumWeight_perm pool hmapperm
  have hssum : (sorted.map MemEntry.sigOps).sum = sumSig pool pkgIds := by
    rw [← sumSig_map_txid pool hwf.1 sorted hsorted_pool]
    exact sumSig_perm pool hmapperm
  constructor
  · refine ⟨?_, ?_, ?_, ?_, ?_, ?_, ?_⟩
    · rw [hib]
      refine List.Nodup.append hbnd hsortednd ?_
      intro a ha hb'
      exact hids_nb a (hmapperm.mem_iff.mp hb') ha
    · intro t ht
      rw [hib] at ht
      rcases List.mem_append.mp ht with h | h
      · exact hbmem t h
      · exact hids_pool t (hmapperm.mem_iff.mp h)
    · rw [hib]
      refine takeClosed_append pool hwf st.inBlock sorted hbtc ?_
        hsorted_pool hsortednd hclose
      rw [hsorted]
      exact pairwise_sortByCount pkgEntries
    · rw [hwt, hib, sumWeight_append, hbw, hwsum,
        sumWeight_perm pool hmapperm]
      omega
    · rw [hsg, hib, sumSig_append, hbs, hssum, sumSig_perm pool hmapperm]
      omega
    · have h1 := h12.1
      rw [hwt, hwsum]
      omega
    · have h2 := h12.2
      have hs_le : sumSig pool pkgIds ≤ pkgSig := by omega
      rw [hsg, hssum]
      omega
  · have hmp1sub : List.Sublist mp1 mp := by
      rw [hmp1]
      exact foldl_eraseMod_sublist sorted mp
    have hmp1inv : ModMapInv pool mp1 st.inBlock :=
      modMapInv_of_sublist hmp1sub hmpinv
    have hmp1A : ∀ me ∈ mp1, me.txid ∉ pkgIds := by
      intro me hme hin
      refine foldl_eraseMod_notMem sorted mp me ?_ (hmapperm.mem_iff.mpr hin)
      rw [← hmp1]
      exact hme
    have hdesc : ∀ p ∈ pkgIds, ∀ d ∈ pool, p ∈ d.ancestors →
        d.txid ∉ pkgIds → d.txid ∉ st.inBlock := by
      intro p hp d hd hpa _ hdin
      exact hids_nb p hp (ancClosed_of_takeClosed hbtc d hd hdin p hpa)
    have h := modMapInv_updateForAdded pool hwf pkgIds st.inBlock mp1
      hids_pool hids_nb hdesc hids_nodup hmp1A hmp1inv
    rw [← hmp2] at h
    refine modMapInv_congr (fun a => ?_) h.1
    rw [hib]
    rw [List.mem_append, List.mem_append, hmapperm.mem_iff]

/-- The invariant carried by the `addPackageTxs` while-loop. -/
def LoopInv (pool : List MemEntry) (opts : AsmOptions) (mi : List MemEntry)
    (mp : List ModEntry) (st : BState) : Prop :=
  (∀ e ∈ mi, e ∈ pool) ∧ ModMapInv pool mp st.inBlock ∧
    BlockInv pool opts st

theorem stepBody_preserves (pool : List MemEntry) (hwf : WfPool pool)
    (opts : AsmOptions) (mi : List MemEntry) (mp : List ModEntry)
    (failed : List Nat) (consec : Int) (st : BState) (iter : MemEntry)
    (fUsing : Bool) (moditOpt : Option ModEntry)
    (hmi : ∀ e ∈ mi, e ∈ pool)
    (hmpinv : ModMapInv pool mp st.inBlock)
    (hb : BlockInv pool opts st)
    (hiter : iter ∈ pool)
    (hmb : fUsing = true → ∃ mb, moditOpt = some mb ∧ mb ∈ mp ∧
      mb.txid = iter.txid) :
    match step.stepBody pool opts mi mp failed consec st iter fUsing
        moditOpt with
    | .stop st' => BlockInv pool opts st'
    | .next mi' mp' _ _ st' => LoopInv pool opts mi' mp' st' := by
  unfold step.stepBody
  by_cases hin : iter.txid ∈ st.inBlock
  · rw [if_pos hin]
    exact hb
  · rw [if_neg hin]
    have hszb0 : sumSize pool (iter.ancestors.filter fun a =>
        a ∉ st.inBlock) + iter.size ≤ iter.sizeWithAncestors := by
      have h1 := sumSize_filter_le pool iter.ancestors
        (fun a => a ∉ st.inBlock)
      have h2 := (hwf.2 iter hiter).2.2.2.2.1
      omega
    have hsgb0 : sumSig pool (iter.ancestors.filter fun a =>
        a ∉ st.inBlock) + iter.sigOps ≤ iter.sigOpCostWithAncestors := by
      have h1 := sumSig_filter_le pool iter.ancestors
        (fun a => a ∉ st.inBlock)
      have h2 := (hwf.2 iter hiter).2.2.2.2.2
      omega
    cases fUsing with
    | false =>
      cases moditOpt with
      | none =>
        dsimp only
        split_ifs with hfee htp hbrk hfin
        · exact hb
        · exact hb
        · exact ⟨hmi, hmpinv, hb⟩
        · exact ⟨hmi, hmpinv, hb⟩
        · have h := addBranch_preserves pool hwf opts st iter mp _ _ _ _ _ _
            _ rfl rfl rfl rfl rfl rfl rfl hiter hin hb hmpinv
            iter.sizeWithAncestors iter.sigOpCostWithAncestors hszb0 hsgb0
            (by simpa using htp)
          exact ⟨hmi, h.2, h.1⟩
      | some mb =>
        dsimp only
        split_ifs with hfee htp hbrk hfin
        · exact hb
        · exact hb
        · exact ⟨hmi, hmpinv, hb⟩
        · exact ⟨hmi, hmpinv, hb⟩
        · have h := addBranch_preserves pool hwf opts st iter mp _ _ _ _ _ _
            _ rfl rfl rfl rfl rfl rfl rfl hiter hin hb hmpinv
            iter.sizeWithAncestors iter.sigOpCostWithAncestors hszb0 hsgb0
            (by simpa using htp)
          exact ⟨hmi, h.2, h.1⟩
    | true =>
      obtain ⟨mb, hmo, hmbmem, hmbt⟩ := hmb rfl
      subst hmo
      obtain ⟨d, hdp, hdt, hdc, hb1, hb2⟩ := hmpinv.2 mb hmbmem
      have hdi : d = iter := txid_inj hwf.1 hdp hiter (by rw [hdt, hmbt])
      subst hdi
      dsimp only
      split_ifs with hfee htp hbrk hfin
      · exact hb
      · exact hb
      · exact ⟨hmi,
          modMapInv_of_sublist (eraseMod_sublist mp d.txid) hmpinv, hb⟩
      · exact ⟨hmi,
          modMapInv_of_sublist (eraseMod_sublist mp d.txid) hmpinv, hb⟩
      · have h := addBranch_preserves pool hwf opts st d mp _ _ _ _ _ _
          _ rfl rfl rfl rfl rfl rfl rfl hiter hin hb hmpinv
          mb.nSizeWithAncestors mb.nSigOpCostWithAncestors hb1 hb2
          (by simpa using htp)
        exact ⟨hmi, h.2, h.1⟩

theorem perm_insertByScore (e : MemEntry) (l : List MemEntry) :
    (insertByScore e l).Perm (e :: l) := by
  induction l with
  | nil => exact List.Perm.refl _
  | cons x xs ih =>
    unfold insertByScore
    by_cases h : ancScoreBefore (modOfEntry e) (modOfEntry x) = true
    · rw [if_pos h]
    · rw [if_neg h]
      exact List.Perm.trans (List.Perm.cons x ih) (List.Perm.swap e x xs)

theorem perm_sortByScore (l : List MemEntry) : (sortByScore l).Perm l := by
  induction l with
  | nil => exact List.Perm.refl _
  | cons x xs ih =>
    unfold sortByScore
    exact List.Perm.trans (perm_insertByScore x (sortByScore xs))
      (List.Perm.cons x ih)

theorem step_preserves (pool : List MemEntry) (hwf : WfPool pool)
    (opts : AsmOptions) (mi : List MemEntry) (mp : List ModEntry)
    (failed : List Nat) (consec : Int) (st : BState)
    (hinv : LoopInv pool opts mi mp st) :
    match step pool opts mi mp failed consec st with
    | .stop st' => BlockInv pool opts st'
    | .next mi' mp' _ _ st' => LoopInv pool opts mi' mp' st' := by
  obtain ⟨hmi, hmpinv, hb⟩ := hinv
  unfold step
  by_cases hempty : mi.isEmpty ∧ mp.isEmpty
  · rw [if_pos hempty]
    exact hb
  · rw [if_neg hempty]
    cases mi with
    | cons e rest =>
      dsimp only
      have hepool : e ∈ pool := hmi e (List.mem_cons_self e rest)
      have hrest : ∀ x ∈ rest, x ∈ pool := fun x hx =>
        hmi x (List.mem_cons_of_mem e hx)
      by_cases hskip : SkipEntry e mp failed st = true
      · rw [if_pos hskip]
        exact ⟨hrest, hmpinv, hb⟩
      · rw [if_neg hskip]
        cases hbm : bestMod mp with
        | none =>
          dsimp only
          exact stepBody_preserves pool hwf opts rest mp failed consec st e
            false none hrest hmpinv hb hepool (by intro h; cases h)
        | some mb =>
          dsimp only
          by_cases hcmp : ancScoreBefore mb (modOfEntry e) = true
          · rw [if_pos hcmp]
            cases hfe : findEntry pool mb.txid with
            | none => exact hb
            | some em =>
              exact stepBody_preserves pool hwf opts (e :: rest) mp failed
                consec st em true (some mb) hmi hmpinv hb
                (mem_of_findEntry hfe).1
                (fun _ => ⟨mb, rfl, bestMod_mem hbm,
                  (mem_of_findEntry hfe).2.symm⟩)
          · rw [if_neg hcmp]
            exact stepBody_preserves pool hwf opts rest mp failed consec st e
              false none hrest hmpinv hb hepool (by intro h; cases h)
    | nil =>
      dsimp only
      cases hbm : bestMod mp with
      | none => exact hb
      | some mb =>
        dsimp only
        cases hfe : findEntry pool mb.txid with
        | none => exact hb
        | some em =>
          exact stepBody_preserves pool hwf opts [] mp failed consec st em
            true (some mb) (by intro x hx; cases hx) hmpinv hb
            (mem_of_findEntry hfe).1
            (fun _ => ⟨mb, rfl, bestMod_mem hbm,
              (mem_of_findEntry hfe).2.symm⟩)

theorem addLoop_inv (pool : List MemEntry) (hwf : WfPool pool)
    (opts : AsmOptions) :
    ∀ (fuel : Nat) (mi : List MemEntry) (mp : List ModEntry)
      (failed : List Nat) (consec : Int) (st : BState),
      LoopInv pool opts mi mp st →
      BlockInv pool opts (addLoop pool opts fuel mi mp failed consec st) := by
  intro fuel
  induction fuel with
  | zero =>
    intro mi mp failed consec st h
    exact h.2.2
  | succ n ih =>
    intro mi mp failed consec st h
    unfold addLoop
    have hstep := step_preserves pool hwf opts mi mp failed consec st h
    cases hs : step pool opts mi mp failed consec st with
    | stop st' =>
      rw [hs] at hstep
      exact hstep
    | next mi' mp' failed' consec' st' =>
      rw [hs] at hstep
      exact ih mi' mp' failed' consec' st' hstep

theorem addPackageTxs_invariant (pool : List MemEntry) (opts : AsmOptions)
    (hwf : WfPool pool) (hwcap : 4000 ≤ opts.nBlockMaxWeight)
    (hscap : 400 ≤ opts.maxSigops) :
    BlockInv pool opts (addPackageTxs pool opts) := by
  unfold addPackageTxs
  apply addLoop_inv pool hwf opts
  refine ⟨?_, ?_, ?_⟩
  · intro e he
    exact (perm_sortByScore pool).subset he
  · exact ⟨List.nodup_nil, fun me hme => absurd hme (List.not_mem_nil me)⟩
  · refine ⟨List.nodup_nil, ?_, ?_, ?_, ?_, ?_, ?_⟩
    · intro t ht
      exact absurd ht (List.not_mem_nil t)
    · intro n e _ het
      simp [resetBlock] at het
    · rfl
    · rfl
    · exact hwcap
    · exact hscap

/-- C6: every block template produced by the assembler's package-selection
loop (`addPackageTxs`) includes, for each included transaction, all of its
in-mempool ancestors, and each ancestor appears at a strictly earlier
position of the template's transaction list than its descendant. Stated
for well-formed mempools and caps that leave room for the coinbase
reservations (4000 weight, 400 sigops). -/
theorem addPackageTxs_topological (pool : List MemEntry) (opts : AsmOptions)
    (hwf : WfPool pool) (hwcap : 4000 ≤ opts.nBlockMaxWeight)
    (hscap : 400 ≤ opts.maxSigops) (e : MemEntry) (he : e ∈ pool)
    (hin : e.txid ∈ (addPackageTxs pool opts).inBlock) :
    ∀ a ∈ e.ancestors, a ∈ (addPackageTxs pool opts).inBlock ∧
      (addPackageTxs pool opts).inBlock.indexOf a
        < (addPackageTxs pool opts).inBlock.indexOf e.txid := by
  intro a ha
  have hb := addPackageTxs_invariant pool opts hwf hwcap hscap
  exact takeClosed_indexOf pool _ hb.2.2.1 e he (hwf.2 e he).2.1 hin ha

/-- C7: for every built template, the selected transactions' total weight
plus the 4000-weight coinbase reservation stays within nBlockMaxWeight,
and their total sigop cost plus the 400 reserved for the coinbase stays
within the sigop cap. -/
theorem addPackageTxs_budget (pool : List MemEntry) (opts : AsmOptions)
    (hwf : WfPool pool) (hwcap : 4000 ≤ opts.nBlockMaxWeight)
    (hscap : 400 ≤ opts.maxSigops) :
    4000 + sumWeight pool (addPackageTxs pool opts).inBlock
        ≤ opts.nBlockMaxWeight ∧
      400 + sumSig pool (addPackageTxs pool opts).inBlock
        ≤ opts.maxSigops := by
  obtain ⟨_, _, _, hw, hs, hwle, hsle⟩ :=
    addPackageTxs_invariant pool opts hwf hwcap hscap
  constructor
  · rw [← hw]
    exact hwle
  · rw [← hs]
    exact hsle

/-- A three-transaction pool: tx 1 (parent), tx 2 (child of 1), tx 3
(independent). -/
def wE1 : MemEntry :=
  { txid := 1, fee := 10, modFee := 10, size := 100, weight := 400,
    sigOps := 4, sizeWithAncestors := 100, modFeesWithAncestors := 10,
    sigOpCostWithAncestors := 4, countWithAncestors := 1, final := true,
    ancestors := [] }

def wE2 : MemEntry :=
  { txid := 2, fee := 5, modFee := 5, size := 100, weight := 400,
    sigOps := 4, sizeWithAncestors := 200, modFeesWithAncestors := 15,
    sigOpCostWithAncestors := 8, countWithAncestors := 2, final := true,
    ancestors := [1] }

def wE3 : MemEntry :=
  { txid := 3, fee := 7, modFee := 7, size := 50, weight := 200,
    sigOps := 2, sizeWithAncestors := 50, modFeesWithAncestors := 7,
    sigOpCostWithAncestors := 2, countWithAncestors := 1, final := true,
    ancestors := [] }

def wMinerPool : List MemEntry := [wE1, wE2, wE3]

def wOpts : AsmOptions :=
  { nBlockMaxWeight := 8000, maxSigops := 800, minFee := fun _ => 0 }

/-- Witness for C6: on the concrete pool, tx 2 is selected, its ancestor
tx 1 is selected too and sits strictly earlier in the template. -/
theorem addPackageTxs_topological_witness :
    (WfPool wMinerPool ∧ 4000 ≤ wOpts.nBlockMaxWeight ∧
      400 ≤ wOpts.maxSigops ∧ wE2 ∈ wMinerPool ∧
      wE2.txid ∈ (addPackageTxs wMinerPool wOpts).inBlock ∧
      1 ∈ wE2.ancestors) ∧
    1 ∈ (addPackageTxs wMinerPool wOpts).inBlock ∧
    (addPackageTxs wMinerPool wOpts).inBlock.indexOf 1
      < (addPackageTxs wMinerPool wOpts).inBlock.indexOf wE2.txid :=
  ⟨⟨by unfold WfPool; decide, by decide, by decide, by decide, by decide,
      by decide⟩,
    addPackageTxs_topological wMinerPool wOpts (by unfold WfPool; decide)
      (by decide) (by decide) wE2 (by decide) (by decide) 1 (by decide)⟩

/-- Witness for C7: the concrete template's totals stay within both
caps. -/
theorem addPackageTxs_budget_witness :
    (WfPool wMinerPool ∧ 4000 ≤ wOpts.nBlockMaxWeight ∧
      400 ≤ wOpts.maxSigops) ∧
    4000 + sumWeight wMinerPool (addPackageTxs wMinerPool wOpts).inBlock
        ≤ wOpts.nBlockMaxWeight ∧
      400 + sumSig wMinerPool (addPackageTxs wMinerPool wOpts).inBlock
        ≤ wOpts.maxSigops :=
  ⟨⟨by unfold WfPool; decide, by decide, by decide⟩,
    addPackageTxs_budget wMinerPool wOpts (by unfold WfPool; decide)
      (by decide) (by decide)⟩

end Miner
